import Mathlib

/-!
Verification of the family-tree relationship-management layer
(`family_tree/models.py` and `family_tree/tree.py`).

The Python code is shallowly embedded: pure validators become Lean
functions returning `Except ValidationError _`; the stateful
`FamilyTree` class becomes a structure with explicit state passing.
Python's insertion-ordered `dict[int, Person]` is modelled as an
association list of `Person` keyed by `id`.  Operations that mutate
state and may raise return both the outcome and the post-state, so
that partial mutation on failure is observable.  Date strings
("YYYY-MM-DD") are modelled by their parsed shape: `DateField.dval y m d`
stands for the string with three dash-separated numeric components
(the rendering `isoformat`/`split`/`int` round-trips exactly on such
strings), `DateField.bad` for any other non-empty string, and
`DateField.emptyV` for `""`.
-/

namespace FamilyTreeSpec

/-- `ValidationError(field, message)` from `models.py`. -/
structure ValidationError where
  field : String
  message : String
deriving DecidableEq, Repr

/-- Calendar date as Python's `datetime.date` (always a valid date when
constructed through `validate_date`). -/
structure Date where
  year : Nat
  month : Nat
  day : Nat
deriving DecidableEq, Repr

/-- Lexicographic comparison matching `datetime.date.__lt__`. -/
def Date.lt (a b : Date) : Bool :=
  a.year < b.year ∨ (a.year = b.year ∧ (a.month < b.month ∨ (a.month = b.month ∧ a.day < b.day)))

/-- Leap-year rule of the Gregorian calendar (`datetime`). -/
def isLeap (y : Nat) : Bool :=
  y % 4 == 0 && (y % 100 != 0 || y % 400 == 0)

/-- Days in a month per `datetime.date`. -/
def daysInMonth (y m : Nat) : Nat :=
  if m = 2 then (if isLeap y then 29 else 28)
  else if m = 4 ∨ m = 6 ∨ m = 9 ∨ m = 11 then 30
  else 31

/-- `datetime.date(y, m, d)` succeeds exactly under these bounds
(year in `MINYEAR..MAXYEAR`, i.e. 1..9999). -/
def validCalendar (y m d : Nat) : Bool :=
  1 ≤ y && y ≤ 9999 && 1 ≤ m && m ≤ 12 && 1 ≤ d && d ≤ daysInMonth y m

/-- A `Optional[str]` argument holding a date: Python `None`, `""`,
a string of three dash-separated numeric parts, or any other string. -/
inductive DateField where
  | noneV : DateField
  | emptyV : DateField
  | dval (y m d : Nat) : DateField
  | bad : DateField
deriving DecidableEq, Repr

/-- Python's `str.strip()`: drop whitespace from both ends.  Computed on
the character list so that concrete inputs evaluate by reduction. -/
def pyStrip (s : String) : String :=
  ⟨((s.data.dropWhile Char.isWhitespace).reverse.dropWhile Char.isWhitespace).reverse⟩

/-- `validate_name` (`models.py` lines 20–29). -/
def validate_name (name : String) : Except ValidationError String :=
  if name = "" ∨ pyStrip name = "" then
    .error ⟨"name", "Name cannot be empty"⟩
  else if (pyStrip name).length > 100 then
    .error ⟨"name", "Name cannot exceed 100 characters"⟩
  else
    .ok (pyStrip name)

/-- `validate_year` (`models.py` lines 32–43).  The argument is typed
`Option Int`, so the `isinstance` check never fires. -/
def validate_year (year : Option Int) (fieldName : String) : Except ValidationError (Option Int) :=
  match year with
  | none => .ok none
  | some y =>
    if y < 1500 ∨ y > 2100 then
      .error ⟨fieldName, "Year must be between 1500 and 2100"⟩
    else
      .ok (some y)

/-- `validate_death_year` (`models.py` lines 46–56). -/
def validate_death_year (death_year birth_year : Option Int) : Except ValidationError (Option Int) :=
  match death_year with
  | none => .ok none
  | some d =>
    match validate_year (some d) "death_year" with
    | .error e => .error e
    | .ok dv =>
      match birth_year, dv with
      | some b, some d2 =>
        if d2 < b then .error ⟨"death_year", "Death year cannot be before birth year"⟩
        else .ok dv
      | _, _ => .ok dv

/-- `validate_gender` (`models.py` lines 59–68). -/
def validate_gender (gender : Option String) : Except ValidationError (Option String) :=
  match gender with
  | none => .ok none
  | some g =>
    if g = "" then .ok none
    else if g = "M" ∨ g = "F" ∨ g = "Other" then .ok (some g)
    else .error ⟨"gender", "Gender must be one of: M, F, Other"⟩

/-- `validate_date` (`models.py` lines 71–91).  A `dval` string parses
into its three components; `date(y, m, d)` raising `ValueError` is the
`validCalendar` test, and the year-range `ValidationError` raised inside
the `try` escapes the `except (ValueError, TypeError)` clause. -/
def validate_date (d : DateField) (fieldName : String) : Except ValidationError (Option Date) :=
  match d with
  | .noneV => .ok none
  | .emptyV => .ok none
  | .bad => .error ⟨fieldName, "Date must be in YYYY-MM-DD format"⟩
  | .dval y m dd =>
    if validCalendar y m dd then
      if y < 1500 ∨ y > 2100 then
        .error ⟨fieldName, "Year must be between 1500 and 2100"⟩
      else
        .ok (some ⟨y, m, dd⟩)
    else
      .error ⟨fieldName, "Date must be in YYYY-MM-DD format"⟩

/-- `validate_death_date` (`models.py` lines 94–111).  Note the Python
truthiness tests: a `date` object is always truthy, while `birth_year`
is falsy when `0`. -/
def validate_death_date (death_date : DateField) (birth_date : Option Date)
    (birth_year : Option Int) : Except ValidationError (Option Date) :=
  match death_date with
  | .noneV => .ok none
  | .emptyV => .ok none
  | dd =>
    match validate_date dd "death_date" with
    | .error e => .error e
    | .ok parsed =>
      match parsed with
      | none => .ok none
      | some p =>
        match birth_date with
        | some bd =>
          if Date.lt p bd then
            .error ⟨"death_date", "Death date cannot be before birth date"⟩
          else .ok (some p)
        | none =>
          match birth_year with
          | some b =>
            if b ≠ 0 ∧ (p.year : Int) < b then
              .error ⟨"death_date", "Death date cannot be before birth year"⟩
            else .ok (some p)
          | none => .ok (some p)

/-- `validate_city` (`models.py` lines 114–123).  The empty-string test
precedes trimming, so a whitespace-only city is stored as `""`. -/
def validate_city (city : Option String) : Except ValidationError (Option String) :=
  match city with
  | none => .ok none
  | some c =>
    if c = "" then .ok none
    else if (pyStrip c).length > 100 then
      .error ⟨"birth_city", "City name cannot exceed 100 characters"⟩
    else
      .ok (some (pyStrip c))

/-- `Person` (`models.py` lines 126–150): fields after construction. -/
structure Person where
  id : Int
  name : String
  birth_year : Option Int
  death_year : Option Int
  gender : Option String
  birth_date : Option Date
  death_date : Option Date
  birth_city : Option String
  parent_ids : List Int
  spouse_ids : List Int
  child_ids : List Int
deriving DecidableEq, Repr

/-- `Person.__init__` (`models.py` lines 129–150): validators run in
source order (name, birth_year, birth_date, death_year, death_date,
gender, birth_city); line 144 passes the raw `birth_year` argument to
`validate_death_year`, line 145 the validated `self.birth_date` and
`self.birth_year`.  Edge lists start empty. -/
def Person.make (id : Int) (name : String) (birth_year death_year : Option Int)
    (gender : Option String) (birth_date death_date : DateField)
    (birth_city : Option String) : Except ValidationError Person :=
  match validate_name name with
  | .error e => .error e
  | .ok n =>
    match validate_year birth_year "birth_year" with
    | .error e => .error e
    | .ok byr =>
      match validate_date birth_date "birth_date" with
      | .error e => .error e
      | .ok bd =>
        match validate_death_year death_year birth_year with
        | .error e => .error e
        | .ok dyr =>
          match validate_death_date death_date bd byr with
          | .error e => .error e
          | .ok dd =>
            match validate_gender gender with
            | .error e => .error e
            | .ok g =>
              match validate_city birth_city with
              | .error e => .error e
              | .ok city => .ok ⟨id, n, byr, dyr, g, bd, dd, city, [], [], []⟩

/-- `FamilyTree` state (`tree.py` lines 20–22): the insertion-ordered
`dict[int, Person]` is an association list keyed by `Person.id`. -/
structure FamilyTree where
  people : List Person
  next_id : Int
deriving DecidableEq, Repr

/-- The freshly constructed tree: `FamilyTree.__init__`. -/
def FamilyTree.empty : FamilyTree := ⟨[], 1⟩

/-- `get_person` (`tree.py` lines 43–45): `dict.get`. -/
def getPerson (t : FamilyTree) (i : Int) : Option Person :=
  t.people.find? (fun p => p.id == i)

/-- `dict[k] = v`: replace in place if the key exists, else append. -/
def dictInsert (l : List Person) (p : Person) : List Person :=
  if l.any (fun q => q.id == p.id) then
    l.map (fun q => if q.id = p.id then p else q)
  else l ++ [p]

/-- In-place mutation of the person stored under `i`. -/
def setPerson (l : List Person) (i : Int) (p : Person) : List Person :=
  l.map (fun q => if q.id = i then p else q)

/-- `add_person` (`tree.py` lines 24–41): the `Person` constructor runs
(and may raise) before anything is stored, so failure leaves the state
unchanged. -/
def addPerson (t : FamilyTree) (name : String) (birth_year death_year : Option Int)
    (gender : Option String) (birth_date death_date : DateField)
    (birth_city : Option String) : Except ValidationError (FamilyTree × Person) :=
  match Person.make t.next_id name birth_year death_year gender birth_date death_date birth_city with
  | .error e => .error e
  | .ok p => .ok (⟨dictInsert t.people p, t.next_id + 1⟩, p)

/-- `add_parent_child` (`tree.py` lines 64–76). -/
def addParentChild (t : FamilyTree) (parent_id child_id : Int) :
    Except String (FamilyTree × Person × Person) :=
  if parent_id = child_id then
    .error "Cannot create parent-child relationship with self"
  else
    match getPerson t parent_id with
    | none => .error ("Parent not found (ID: " ++ toString parent_id ++ ")")
    | some parent =>
      match getPerson t child_id with
      | none => .error ("Child not found (ID: " ++ toString child_id ++ ")")
      | some child =>
        let parent' := if child_id ∈ parent.child_ids then parent
                       else { parent with child_ids := parent.child_ids ++ [child_id] }
        let child' := if parent_id ∈ child.parent_ids then child
                      else { child with parent_ids := child.parent_ids ++ [parent_id] }
        .ok ({ t with people := setPerson (setPerson t.people parent_id parent') child_id child' },
             parent', child')

/-- `add_spouse` (`tree.py` lines 78–90). -/
def addSpouse (t : FamilyTree) (person1_id person2_id : Int) :
    Except String (FamilyTree × Person × Person) :=
  if person1_id = person2_id then
    .error "Cannot create spouse relationship with self"
  else
    match getPerson t person1_id with
    | none => .error ("First person not found (ID: " ++ toString person1_id ++ ")")
    | some p1 =>
      match getPerson t person2_id with
      | none => .error ("Second person not found (ID: " ++ toString person2_id ++ ")")
      | some p2 =>
        let p1' := if person2_id ∈ p1.spouse_ids then p1
                   else { p1 with spouse_ids := p1.spouse_ids ++ [person2_id] }
        let p2' := if person1_id ∈ p2.spouse_ids then p2
                   else { p2 with spouse_ids := p2.spouse_ids ++ [person1_id] }
        .ok ({ t with people := setPerson (setPerson t.people person1_id p1') person2_id p2' },
             p1', p2')

/-- The scrubbing loop body of `remove_person` (`tree.py` lines 96–102):
`if id in lst: lst.remove(id)` removes the first occurrence, which is
exactly `List.erase` (a no-op when absent). -/
def scrub (pid : Int) (o : Person) : Person :=
  { o with parent_ids := o.parent_ids.erase pid,
           child_ids := o.child_ids.erase pid,
           spouse_ids := o.spouse_ids.erase pid }

/-- `remove_person` (`tree.py` lines 92–105): scrub every entity
(including the removed one, which is then returned scrubbed), then
delete the entry. -/
def removePerson (t : FamilyTree) (person_id : Int) : Except String (FamilyTree × Person) :=
  match getPerson t person_id with
  | none => .error ("Person not found (ID: " ++ toString person_id ++ ")")
  | some p =>
    .ok ({ t with people := (t.people.map (scrub person_id)).filter (fun q => q.id != person_id) },
         scrub person_id p)

/-- The `if name is not None` branch of `update_person` (`tree.py` 238–239). -/
def updName (name : Option String) (p : Person) : Except ValidationError Person :=
  match name with
  | none => .ok p
  | some n =>
    match validate_name n with
    | .error e => .error e
    | .ok v => .ok { p with name := v }

/-- `update_person` lines 240–241. -/
def updBirthYear (birth_year : Option Int) (p : Person) : Except ValidationError Person :=
  match birth_year with
  | none => .ok p
  | some y =>
    match validate_year (some y) "birth_year" with
    | .error e => .error e
    | .ok v => .ok { p with birth_year := v }

/-- `update_person` lines 242–243: `"" `(falsy) assigns `None` directly. -/
def updBirthDate (birth_date : DateField) (p : Person) : Except ValidationError Person :=
  match birth_date with
  | .noneV => .ok p
  | .emptyV => .ok { p with birth_date := none }
  | d =>
    match validate_date d "birth_date" with
    | .error e => .error e
    | .ok v => .ok { p with birth_date := v }

/-- `update_person` lines 244–245: validated against the person's
current (possibly just updated) `birth_year`. -/
def updDeathYear (death_year : Option Int) (p : Person) : Except ValidationError Person :=
  match death_year with
  | none => .ok p
  | some y =>
    match validate_death_year (some y) p.birth_year with
    | .error e => .error e
    | .ok v => .ok { p with death_year := v }

/-- `update_person` lines 246–247. -/
def updDeathDate (death_date : DateField) (p : Person) : Except ValidationError Person :=
  match death_date with
  | .noneV => .ok p
  | .emptyV => .ok { p with death_date := none }
  | d =>
    match validate_death_date d p.birth_date p.birth_year with
    | .error e => .error e
    | .ok v => .ok { p with death_date := v }

/-- `update_person` lines 248–249. -/
def updGender (gender : Option String) (p : Person) : Except ValidationError Person :=
  match gender with
  | none => .ok p
  | some s =>
    if s = "" then .ok { p with gender := none }
    else
      match validate_gender (some s) with
      | .error e => .error e
      | .ok v => .ok { p with gender := v }

/-- `update_person` lines 250–251. -/
def updCity (birth_city : Option String) (p : Person) : Except ValidationError Person :=
  match birth_city with
  | none => .ok p
  | some s =>
    if s = "" then .ok { p with birth_city := none }
    else
      match validate_city (some s) with
      | .error e => .error e
      | .ok v => .ok { p with birth_city := v }

/-- One field assignment of `update_person`: on failure the error is
paired with the person as mutated so far (the failing field itself is
never assigned). -/
def fieldStep (r : Except (ValidationError × Person) Person)
    (f : Person → Except ValidationError Person) : Except (ValidationError × Person) Person :=
  match r with
  | .error ep => .error ep
  | .ok p =>
    match f p with
    | .error e => .error (e, p)
    | .ok p' => .ok p'

/-- The field-assignment chain of `update_person` (`tree.py` 238–251),
in source order. -/
def updateFields (p : Person) (name : Option String) (birth_year death_year : Option Int)
    (gender : Option String) (birth_date death_date : DateField) (birth_city : Option String) :
    Except (ValidationError × Person) Person :=
  fieldStep (fieldStep (fieldStep (fieldStep (fieldStep (fieldStep (fieldStep (.ok p)
    (updName name)) (updBirthYear birth_year)) (updBirthDate birth_date))
    (updDeathYear death_year)) (updDeathDate death_date)) (updGender gender))
    (updCity birth_city)

/-- Failure modes of `update_person`: `ValueError` ("not found") or a
propagated `ValidationError`. -/
inductive UpdateErr where
  | notFound (msg : String)
  | invalid (e : ValidationError)
deriving DecidableEq, Repr

/-- `update_person` (`tree.py` lines 219–253).  The person object is
mutated in place field by field, so a `ValidationError` leaves the
already-assigned fields in the stored state: the post-state is returned
alongside the outcome. -/
def updatePerson (t : FamilyTree) (person_id : Int) (name : Option String)
    (birth_year death_year : Option Int) (gender : Option String)
    (birth_date death_date : DateField) (birth_city : Option String) :
    Except UpdateErr Person × FamilyTree :=
  match getPerson t person_id with
  | none => (.error (.notFound ("Person not found (ID: " ++ toString person_id ++ ")")), t)
  | some p =>
    match updateFields p name birth_year death_year gender birth_date death_date birth_city with
    | .error (e, q) => (.error (.invalid e), { t with people := setPerson t.people person_id q })
    | .ok q => (.ok q, { t with people := setPerson t.people person_id q })

/-! ## Persistence (`save`/`load`, `to_dict`/`from_dict`)

A parsed JSON person object: `data["id"]` and `data["name"]` raise
`KeyError` when missing (hence `Option`), the remaining keys are read
with `data.get` and default to `None` / `[]`.  A stored date serialized
by `isoformat` is the string `"YYYY-MM-DD"`; since `split("-")`/`int`
recover exactly the three numeric components, the serialized form is
modelled by those components (`DateField.dval`). -/
structure PersonData where
  idKey : Option Int
  nameKey : Option String
  birth_year : Option Int
  death_year : Option Int
  gender : Option String
  birth_date : DateField
  death_date : DateField
  birth_city : Option String
  parent_ids : List Int
  spouse_ids : List Int
  child_ids : List Int
deriving DecidableEq, Repr

/-- `isoformat` on an optional stored date (`to_dict`, `models.py` 160–161). -/
def dateOut : Option Date → DateField
  | none => .noneV
  | some d => .dval d.year d.month d.day

/-- `Person.to_dict` (`models.py` lines 152–166). -/
def toDict (p : Person) : PersonData :=
  ⟨some p.id, some p.name, p.birth_year, p.death_year, p.gender,
   dateOut p.birth_date, dateOut p.death_date, p.birth_city,
   p.parent_ids, p.spouse_ids, p.child_ids⟩

/-- `Person.from_dict` can raise `KeyError` (missing `id`/`name`) or let
a `ValidationError` from the constructor propagate. -/
inductive FromDictErr where
  | keyError (k : String)
  | invalid (e : ValidationError)
deriving DecidableEq, Repr

/-- `Person.from_dict` (`models.py` lines 168–184): constructor
arguments are evaluated in order (`data["id"]` before `data["name"]`),
then the edge lists are overwritten verbatim, with no deduplication. -/
def fromDict (d : PersonData) : Except FromDictErr Person :=
  match d.idKey with
  | none => .error (.keyError "id")
  | some i =>
    match d.nameKey with
    | none => .error (.keyError "name")
    | some nm =>
      match Person.make i nm d.birth_year d.death_year d.gender
          d.birth_date d.death_date d.birth_city with
      | .error e => .error (.invalid e)
      | .ok p => .ok { p with parent_ids := d.parent_ids,
                              spouse_ids := d.spouse_ids,
                              child_ids := d.child_ids }

/-- The content of the persisted file: either text that fails JSON
parsing, or the parsed top-level object with its two optional keys. -/
inductive Document where
  | unparsable : Document
  | parsed (next_id : Option Int) (people : Option (List PersonData)) : Document
deriving DecidableEq, Repr

/-- `save` (`tree.py` lines 190–198): serializes the whole state. -/
def save (t : FamilyTree) : Document :=
  .parsed (some t.next_id) (some (t.people.map toDict))

/-- Failure modes of `load`: the `ValueError` it raises for
`JSONDecodeError`/`KeyError`, or a propagated (uncaught)
`ValidationError` from a person constructor. -/
inductive LoadErr where
  | valueError (msg : String)
  | invalid (e : ValidationError)
deriving DecidableEq, Repr

/-- The `for person_data in data.get("people", [])` loop of `load`
(`tree.py` 211–213): builds the new dict entry by entry; on failure the
entries built so far are what `self.people` holds. -/
def loadPeople (l : List PersonData) (acc : List Person) :
    Except (FromDictErr × List Person) (List Person) :=
  match l with
  | [] => .ok acc
  | d :: rest =>
    match fromDict d with
    | .error e => .error (e, acc)
    | .ok p => loadPeople rest (dictInsert acc p)

/-- `load` (`tree.py` lines 200–217).  `doc = none` models a missing
file (returns `false`).  A `JSONDecodeError` is caught and re-raised as
`ValueError` before any mutation; but `next_id` is overwritten and
`people` reset *before* the per-person loop, so a `KeyError` (re-raised
as `ValueError`) or a propagated `ValidationError` mid-loop leaves the
partially rebuilt state behind. -/
def load (t : FamilyTree) (doc : Option Document) : Except LoadErr Bool × FamilyTree :=
  match doc with
  | none => (.ok false, t)
  | some .unparsable =>
    (.error (.valueError "Error loading file: Expecting value"), t)
  | some (.parsed nid pds) =>
    let n := nid.getD 1
    match loadPeople (pds.getD []) [] with
    | .error (.keyError k, acc) =>
      (.error (.valueError ("Error loading file: '" ++ k ++ "'")), ⟨acc, n⟩)
    | .error (.invalid e, acc) => (.error (.invalid e), ⟨acc, n⟩)
    | .ok people => (.ok true, ⟨people, n⟩)

/-! ## Tree building (`get_tree_data` / `_build_tree_node`)

The recursion is defined with a fuel parameter; `nodeFuel` fuel is
always sufficient (proved below), so the fuel-exhausted branch of the
packaged `buildTreeNode` never fires. -/

/-- A node of the visualization tree (`_build_tree_node`'s dict). -/
inductive TreeNode where
  | node (person : Person) (spouses : List Person) (children : List TreeNode)
      (truncated : Bool) : TreeNode
deriving Repr

def TreeNode.person : TreeNode → Person
  | .node p _ _ _ => p

def TreeNode.spouses : TreeNode → List Person
  | .node _ s _ _ => s

def TreeNode.children : TreeNode → List TreeNode
  | .node _ _ c _ => c

def TreeNode.isTrunc : TreeNode → Bool
  | .node _ _ _ tr => tr

/-- The `for child_id in person.child_ids` loop of `_build_tree_node`
(`tree.py` lines 177–181), parameterized by the recursive call `f`:
children missing from the collection are skipped, and the mutable
`visited` set is threaded left to right. -/
def buildChildrenAux (f : Person → List Int → Option (TreeNode × List Int))
    (t : FamilyTree) : List Int → List Int → Option (List TreeNode × List Int)
  | [], visited => some ([], visited)
  | cid :: rest, visited =>
    match getPerson t cid with
    | none => buildChildrenAux f t rest visited
    | some child =>
      match f child visited with
      | none => none
      | some (node, visited') =>
        match buildChildrenAux f t rest visited' with
        | none => none
        | some (nodes, visited'') => some (node :: nodes, visited'')

/-- `_build_tree_node` (`tree.py` lines 167–188) with explicit fuel and
the mutable `visited` set threaded through (elements are prepended). -/
def buildTreeNodeFuel : Nat → FamilyTree → Person → List Int → Option (TreeNode × List Int)
  | 0, _, _, _ => none
  | fuel + 1, t, p, visited =>
    if p.id ∈ visited then
      some (.node p [] [] true, visited)
    else
      let spouses := p.spouse_ids.filterMap (getPerson t)
      match buildChildrenAux (buildTreeNodeFuel fuel t) t p.child_ids (p.id :: visited) with
      | none => none
      | some (children, visited2) => some (.node p spouses children false, visited2)

/-- Fuel that always suffices: one level per stored person plus one. -/
def nodeFuel (t : FamilyTree) : Nat := t.people.length + 1

/-- `_build_tree_node` as called by `get_tree_data`; the default is dead
code (see the adequacy theorem below). -/
def buildTreeNode (t : FamilyTree) (p : Person) (visited : List Int) : TreeNode × List Int :=
  (buildTreeNodeFuel (nodeFuel t) t p visited).getD (.node p [] [] true, visited)

/-- Root selection of `get_tree_data` without `root_id`
(`tree.py` lines 161–163). -/
def getTreeDataRoots (t : FamilyTree) : List Person :=
  let roots := t.people.filter (fun p => p.parent_ids.isEmpty)
  if roots.isEmpty then
    match t.people with
    | [] => []
    | p :: _ => [p]
  else roots

/-- The `else` branch of `get_tree_data` (line 165): one *fresh* visited
set per root. -/
def getTreeDataNoRoot (t : FamilyTree) : List TreeNode :=
  (getTreeDataRoots t).map (fun root => (buildTreeNode t root []).1)

/-- `get_tree_data` (`tree.py` lines 150–165).  Python's `if root_id:`
is false for `None` *and* for `0`, and the empty-collection early return
precedes the `root_id` check. -/
def getTreeData (t : FamilyTree) (root_id : Option Int) : Except String (List TreeNode) :=
  if t.people.isEmpty then .ok []
  else
    match root_id with
    | some r =>
      if r ≠ 0 then
        match getPerson t r with
        | none => .error ("Person not found (ID: " ++ toString r ++ ")")
        | some root => .ok [(buildTreeNode t root []).1]
      else
        .ok (getTreeDataNoRoot t)
    | none => .ok (getTreeDataNoRoot t)

/-! ## Helper lemmas about the `update_person` field chain -/

theorem updName_frame {a : Option String} {p q : Person} (h : updName a p = .ok q) :
    q = { p with name := q.name } := by
  unfold updName at h
  split at h
  · cases h; rfl
  · split at h
    · exact Except.noConfusion h
    · cases h; rfl

theorem updBirthYear_frame {a : Option Int} {p q : Person} (h : updBirthYear a p = .ok q) :
    q = { p with birth_year := q.birth_year } := by
  unfold updBirthYear at h
  split at h
  · cases h; rfl
  · split at h
    · exact Except.noConfusion h
    · cases h; rfl

theorem updBirthDate_frame {a : DateField} {p q : Person} (h : updBirthDate a p = .ok q) :
    q = { p with birth_date := q.birth_date } := by
  unfold updBirthDate at h
  split at h
  · cases h; rfl
  · cases h; rfl
  · split at h
    · exact Except.noConfusion h
    · cases h; rfl

theorem updDeathYear_frame {a : Option Int} {p q : Person} (h : updDeathYear a p = .ok q) :
    q = { p with death_year := q.death_year } := by
  unfold updDeathYear at h
  split at h
  · cases h; rfl
  · split at h
    · exact Except.noConfusion h
    · cases h; rfl

theorem updDeathDate_frame {a : DateField} {p q : Person} (h : updDeathDate a p = .ok q) :
    q = { p with death_date := q.death_date } := by
  unfold updDeathDate at h
  split at h
  · cases h; rfl
  · cases h; rfl
  · split at h
    · exact Except.noConfusion h
    · cases h; rfl

theorem updGender_frame {a : Option String} {p q : Person} (h : updGender a p = .ok q) :
    q = { p with gender := q.gender } := by
  unfold updGender at h
  split at h
  · cases h; rfl
  · split at h
    · cases h; rfl
    · split at h
      · exact Except.noConfusion h
      · cases h; rfl

theorem updCity_frame {a : Option String} {p q : Person} (h : updCity a p = .ok q) :
    q = { p with birth_city := q.birth_city } := by
  unfold updCity at h
  split at h
  · cases h; rfl
  · split at h
    · cases h; rfl
    · split at h
      · exact Except.noConfusion h
      · cases h; rfl

theorem validate_name_err_field {n : String} {e : ValidationError}
    (h : validate_name n = .error e) : e.field = "name" := by
  unfold validate_name at h
  split at h
  · cases h; rfl
  · split at h
    · cases h; rfl
    · exact Except.noConfusion h

theorem validate_year_err_field {a : Option Int} {f : String} {e : ValidationError}
    (h : validate_year a f = .error e) : e.field = f := by
  cases a with
  | none => simp [validate_year] at h
  | some y =>
    simp only [validate_year] at h
    split at h
    · cases h; rfl
    · exact Except.noConfusion h

theorem validate_gender_err_field {a : Option String} {e : ValidationError}
    (h : validate_gender a = .error e) : e.field = "gender" := by
  cases a with
  | none => simp [validate_gender] at h
  | some g =>
    simp only [validate_gender] at h
    split at h
    · exact Except.noConfusion h
    · split at h
      · exact Except.noConfusion h
      · cases h; rfl

theorem validate_city_err_field {a : Option String} {e : ValidationError}
    (h : validate_city a = .error e) : e.field = "birth_city" := by
  cases a with
  | none => simp [validate_city] at h
  | some c =>
    simp only [validate_city] at h
    split at h
    · exact Except.noConfusion h
    · split at h
      · cases h; rfl
      · exact Except.noConfusion h

theorem validate_date_err_field {d : DateField} {f : String} {e : ValidationError}
    (h : validate_date d f = .error e) : e.field = f := by
  cases d with
  | noneV => simp [validate_date] at h
  | emptyV => simp [validate_date] at h
  | bad => simp only [validate_date] at h; cases h; rfl
  | dval y m dd =>
    simp only [validate_date] at h
    split at h
    · split at h
      · cases h; rfl
      · exact Except.noConfusion h
    · cases h; rfl

theorem validate_death_year_err_field {a b : Option Int} {e : ValidationError}
    (h : validate_death_year a b = .error e) : e.field = "death_year" := by
  unfold validate_death_year at h
  split at h
  · exact Except.noConfusion h
  · split at h
    · cases h
      exact validate_year_err_field (by assumption)
    · split at h
      · split at h
        · cases h; rfl
        · exact Except.noConfusion h
      · exact Except.noConfusion h

theorem validate_death_date_err_field {a : DateField} {bd : Option Date} {byr : Option Int}
    {e : ValidationError} (h : validate_death_date a bd byr = .error e) :
    e.field = "death_date" := by
  unfold validate_death_date at h
  split at h
  · exact Except.noConfusion h
  · exact Except.noConfusion h
  · split at h
    · cases h
      exact validate_date_err_field (by assumption)
    · split at h
      · exact Except.noConfusion h
      · split at h
        · split at h
          · cases h; rfl
          · exact Except.noConfusion h
        · split at h
          · split at h
            · cases h; rfl
            · exact Except.noConfusion h
          · exact Except.noConfusion h

theorem updName_err_field {a : Option String} {p : Person} {e : ValidationError}
    (h : updName a p = .error e) : e.field = "name" := by
  cases a with
  | none => simp [updName] at h
  | some n =>
    simp only [updName] at h
    cases hv : validate_name n with
    | error e' => rw [hv] at h; cases h; exact validate_name_err_field hv
    | ok v => rw [hv] at h; exact Except.noConfusion h

theorem updBirthYear_err_field {a : Option Int} {p : Person} {e : ValidationError}
    (h : updBirthYear a p = .error e) : e.field = "birth_year" := by
  cases a with
  | none => simp [updBirthYear] at h
  | some y =>
    simp only [updBirthYear] at h
    cases hv : validate_year (some y) "birth_year" with
    | error e' => rw [hv] at h; cases h; exact validate_year_err_field hv
    | ok v => rw [hv] at h; exact Except.noConfusion h

theorem updBirthDate_err_field {a : DateField} {p : Person} {e : ValidationError}
    (h : updBirthDate a p = .error e) : e.field = "birth_date" := by
  cases a with
  | noneV => simp [updBirthDate] at h
  | emptyV => simp [updBirthDate] at h
  | bad =>
    simp only [updBirthDate] at h
    cases hv : validate_date .bad "birth_date" with
    | error e' => rw [hv] at h; cases h; exact validate_date_err_field hv
    | ok v => rw [hv] at h; exact Except.noConfusion h
  | dval y m dd =>
    simp only [updBirthDate] at h
    cases hv : validate_date (.dval y m dd) "birth_date" with
    | error e' => rw [hv] at h; cases h; exact validate_date_err_field hv
    | ok v => rw [hv] at h; exact Except.noConfusion h

theorem updDeathYear_err_field {a : Option Int} {p : Person} {e : ValidationError}
    (h : updDeathYear a p = .error e) : e.field = "death_year" := by
  cases a with
  | none => simp [updDeathYear] at h
  | some y =>
    simp only [updDeathYear] at h
    cases hv : validate_death_year (some y) p.birth_year with
    | error e' => rw [hv] at h; cases h; exact validate_death_year_err_field hv
    | ok v => rw [hv] at h; exact Except.noConfusion h

theorem updDeathDate_err_field {a : DateField} {p : Person} {e : ValidationError}
    (h : updDeathDate a p = .error e) : e.field = "death_date" := by
  cases a with
  | noneV => simp [updDeathDate] at h
  | emptyV => simp [updDeathDate] at h
  | bad =>
    simp only [updDeathDate] at h
    cases hv : validate_death_date .bad p.birth_date p.birth_year with
    | error e' => rw [hv] at h; cases h; exact validate_death_date_err_field hv
    | ok v => rw [hv] at h; exact Except.noConfusion h
  | dval y m dd =>
    simp only [updDeathDate] at h
    cases hv : validate_death_date (.dval y m dd) p.birth_date p.birth_year with
    | error e' => rw [hv] at h; cases h; exact validate_death_date_err_field hv
    | ok v => rw [hv] at h; exact Except.noConfusion h

theorem updGender_err_field {a : Option String} {p : Person} {e : ValidationError}
    (h : updGender a p = .error e) : e.field = "gender" := by
  cases a with
  | none => simp [updGender] at h
  | some s =>
    simp only [updGender] at h
    split at h
    · exact Except.noConfusion h
    · cases hv : validate_gender (some s) with
      | error e' => rw [hv] at h; cases h; exact validate_gender_err_field hv
      | ok v => rw [hv] at h; exact Except.noConfusion h

theorem updCity_err_field {a : Option String} {p : Person} {e : ValidationError}
    (h : updCity a p = .error e) : e.field = "birth_city" := by
  cases a with
  | none => simp [updCity] at h
  | some s =>
    simp only [updCity] at h
    split at h
    · exact Except.noConfusion h
    · cases hv : validate_city (some s) with
      | error e' => rw [hv] at h; cases h; exact validate_city_err_field hv
      | ok v => rw [hv] at h; exact Except.noConfusion h

theorem validate_year_ok_val {y : Int} {f : String} {v : Option Int}
    (h : validate_year (some y) f = .ok v) : v = some y := by
  simp only [validate_year] at h
  split at h
  · exact Except.noConfusion h
  · exact (Except.ok.inj h).symm

theorem validate_death_year_ok_val {d : Int} {b v : Option Int}
    (h : validate_death_year (some d) b = .ok v) : v = some d := by
  simp only [validate_death_year] at h
  split at h
  · exact Except.noConfusion h
  · have hdv := validate_year_ok_val (by assumption)
    subst hdv
    split at h
    · split at h
      · exact Except.noConfusion h
      · exact (Except.ok.inj h).symm
    · exact (Except.ok.inj h).symm

theorem validate_name_ok_ne {n v : String} (h : validate_name n = .ok v) : v ≠ "" := by
  unfold validate_name at h
  split at h
  · exact Except.noConfusion h
  · split at h
    · exact Except.noConfusion h
    · cases h
      intro hne
      simp_all

theorem updName_none_eq {p q : Person} (h : updName none p = .ok q) : q = p := by
  simp only [updName, Except.ok.injEq] at h
  exact h.symm

theorem updBirthYear_none_eq {p q : Person} (h : updBirthYear none p = .ok q) : q = p := by
  simp only [updBirthYear, Except.ok.injEq] at h
  exact h.symm

theorem updBirthDate_none_eq {p q : Person} (h : updBirthDate .noneV p = .ok q) : q = p := by
  simp only [updBirthDate, Except.ok.injEq] at h
  exact h.symm

theorem updDeathYear_none_eq {p q : Person} (h : updDeathYear none p = .ok q) : q = p := by
  simp only [updDeathYear, Except.ok.injEq] at h
  exact h.symm

theorem updDeathDate_none_eq {p q : Person} (h : updDeathDate .noneV p = .ok q) : q = p := by
  simp only [updDeathDate, Except.ok.injEq] at h
  exact h.symm

theorem updGender_none_eq {p q : Person} (h : updGender none p = .ok q) : q = p := by
  simp only [updGender, Except.ok.injEq] at h
  exact h.symm

theorem updCity_none_eq {p q : Person} (h : updCity none p = .ok q) : q = p := by
  simp only [updCity, Except.ok.injEq] at h
  exact h.symm

theorem updBirthDate_empty_eq {p q : Person} (h : updBirthDate .emptyV p = .ok q) :
    q = { p with birth_date := none } := by
  simp only [updBirthDate, Except.ok.injEq] at h
  exact h.symm

theorem updDeathDate_empty_eq {p q : Person} (h : updDeathDate .emptyV p = .ok q) :
    q = { p with death_date := none } := by
  simp only [updDeathDate, Except.ok.injEq] at h
  exact h.symm

theorem updGender_empty_eq {p q : Person} (h : updGender (some "") p = .ok q) :
    q = { p with gender := none } := by
  simp [updGender] at h
  exact h.symm

theorem updCity_empty_eq {p q : Person} (h : updCity (some "") p = .ok q) :
    q = { p with birth_city := none } := by
  simp [updCity] at h
  exact h.symm

theorem updName_some_inv {n : String} {p q : Person} (h : updName (some n) p = .ok q) :
    ∃ v, validate_name n = .ok v ∧ q = { p with name := v } := by
  simp only [updName] at h
  split at h
  · exact Except.noConfusion h
  · exact ⟨_, by assumption, (Except.ok.inj h).symm⟩

theorem updBirthYear_some_val {y : Int} {p q : Person}
    (h : updBirthYear (some y) p = .ok q) : q.birth_year = some y := by
  simp only [updBirthYear] at h
  split at h
  · exact Except.noConfusion h
  · have hv := validate_year_ok_val (by assumption)
    rw [← Except.ok.inj h]
    simpa using hv

theorem updDeathYear_some_val {y : Int} {p q : Person}
    (h : updDeathYear (some y) p = .ok q) : q.death_year = some y := by
  simp only [updDeathYear] at h
  split at h
  · exact Except.noConfusion h
  · have hv := validate_death_year_ok_val (by assumption)
    rw [← Except.ok.inj h]
    simpa using hv

theorem updatePerson_eq_of_found {t : FamilyTree} {pid : Int} {p0 : Person}
    (nameA : Option String) (byA dyA : Option Int) (gA : Option String)
    (bdA ddA : DateField) (cityA : Option String)
    (hp : getPerson t pid = some p0) :
    updatePerson t pid nameA byA dyA gA bdA ddA cityA =
      match updateFields p0 nameA byA dyA gA bdA ddA cityA with
      | .error (e, q) =>
        (.error (.invalid e), { t with people := setPerson t.people pid q })
      | .ok q => (.ok q, { t with people := setPerson t.people pid q }) := by
  unfold updatePerson
  rw [hp]

theorem fieldStep_ok_inv {r : Except (ValidationError × Person) Person}
    {f : Person → Except ValidationError Person} {q : Person}
    (h : fieldStep r f = .ok q) : ∃ p1, r = .ok p1 ∧ f p1 = .ok q := by
  cases r with
  | error ep => exact Except.noConfusion h
  | ok p1 =>
    refine ⟨p1, rfl, ?_⟩
    simp only [fieldStep] at h
    cases hf : f p1 with
    | error e => rw [hf] at h; exact Except.noConfusion h
    | ok p' => rw [hf] at h; cases h; rfl

theorem fieldStep_err_inv {r : Except (ValidationError × Person) Person}
    {f : Person → Except ValidationError Person} {e : ValidationError} {q : Person}
    (h : fieldStep r f = .error (e, q)) :
    r = .error (e, q) ∨ (r = .ok q ∧ f q = .error e) := by
  cases r with
  | error ep =>
    left
    simp only [fieldStep] at h
    cases h; rfl
  | ok p1 =>
    right
    simp only [fieldStep] at h
    cases hf : f p1 with
    | error e' =>
      rw [hf] at h
      injection h with h
      injection h with h1 h2
      subst h1; subst h2
      exact ⟨rfl, hf⟩
    | ok p' => rw [hf] at h; exact Except.noConfusion h

/-! ## Helper notions for the tree traversal -/

/-- The ids stored in the collection. -/
def idsOf (t : FamilyTree) : List Int := t.people.map Person.id

mutual

/-- Ids of the nodes a tree actually expanded (`truncated = false`),
in preorder. -/
def expandedIds : TreeNode → List Int
  | .node p _ cs tr => if tr then [] else p.id :: expandedIdsL cs

def expandedIdsL : List TreeNode → List Int
  | [] => []
  | c :: cs => expandedIds c ++ expandedIdsL cs

end

mutual

/-- Every truncated node in the tree is a leaf: no spouses, no children. -/
def truncOk : TreeNode → Bool
  | .node _ sp cs tr => (!tr || (sp.isEmpty && cs.isEmpty)) && truncOkL cs

def truncOkL : List TreeNode → Bool
  | [] => true
  | c :: cs => truncOk c && truncOkL cs

end

/-- Number of stored ids not yet visited: the decreasing measure of the
traversal. -/
def freshCount (t : FamilyTree) (visited : List Int) : Nat :=
  ((idsOf t).toFinset \ visited.toFinset).card

theorem getPerson_mem {t : FamilyTree} {i : Int} {p : Person}
    (h : getPerson t i = some p) : p ∈ t.people ∧ p.id = i := by
  refine ⟨List.mem_of_find?_eq_some h, ?_⟩
  have := List.find?_some h
  simpa using this

theorem freshCount_cons_lt {t : FamilyTree} {pid : Int} {visited : List Int}
    (h1 : pid ∈ idsOf t) (h2 : pid ∉ visited) :
    freshCount t (pid :: visited) < freshCount t visited := by
  unfold freshCount
  have hmem : pid ∈ (idsOf t).toFinset \ visited.toFinset :=
    Finset.mem_sdiff.mpr ⟨List.mem_toFinset.mpr h1, fun hc => h2 (List.mem_toFinset.mp hc)⟩
  have heq : (idsOf t).toFinset \ (pid :: visited).toFinset =
      ((idsOf t).toFinset \ visited.toFinset).erase pid := by
    ext x
    simp only [List.toFinset_cons, Finset.mem_sdiff, Finset.mem_insert, Finset.mem_erase,
      List.mem_toFinset, not_or]
    tauto
  rw [heq]
  exact Finset.card_erase_lt_of_mem hmem

theorem freshCount_append_le (t : FamilyTree) (l visited : List Int) :
    freshCount t (l ++ visited) ≤ freshCount t visited := by
  unfold freshCount
  apply Finset.card_le_card
  apply Finset.sdiff_subset_sdiff (le_refl _)
  intro x hx
  rw [List.mem_toFinset] at hx
  rw [List.mem_toFinset]
  exact List.mem_append_right _ hx

theorem freshCount_le (t : FamilyTree) (visited : List Int) :
    freshCount t visited ≤ t.people.length := by
  unfold freshCount
  calc ((idsOf t).toFinset \ visited.toFinset).card
      ≤ (idsOf t).toFinset.card := Finset.card_le_card (Finset.sdiff_subset)
    _ ≤ (idsOf t).length := List.toFinset_card_le _
    _ = t.people.length := by simp [idsOf]

/-- The visited set returned by the children loop extends the input set
by exactly the expanded ids (reversed, since elements are prepended);
the expanded ids are fresh and pairwise distinct. -/
theorem buildChildrenAux_visited
    (f : Person → List Int → Option (TreeNode × List Int)) (t : FamilyTree)
    (hf : ∀ p visited nd v', f p visited = some (nd, v') →
      v' = (expandedIds nd).reverse ++ visited ∧
      (∀ x ∈ expandedIds nd, x ∉ visited) ∧ (expandedIds nd).Nodup) :
    ∀ cids visited ns v', buildChildrenAux f t cids visited = some (ns, v') →
      v' = (expandedIdsL ns).reverse ++ visited ∧
      (∀ x ∈ expandedIdsL ns, x ∉ visited) ∧ (expandedIdsL ns).Nodup := by
  intro cids
  induction cids with
  | nil =>
    intro visited ns v' h
    simp only [buildChildrenAux, Option.some.injEq, Prod.mk.injEq] at h
    obtain ⟨rfl, rfl⟩ := h
    simp [expandedIdsL]
  | cons cid rest ih =>
    intro visited ns v' h
    simp only [buildChildrenAux] at h
    split at h
    · exact ih visited ns v' h
    · rename_i child hg
      split at h
      · exact Option.noConfusion h
      · rename_i nd v1 hn
        split at h
        · exact Option.noConfusion h
        · rename_i nds v2 hr
          simp only [Option.some.injEq, Prod.mk.injEq] at h
          obtain ⟨rfl, rfl⟩ := h
          obtain ⟨he1, hm1, hnd1⟩ := hf child visited nd v1 hn
          obtain ⟨he2, hm2, hnd2⟩ := ih v1 nds v2 hr
          refine ⟨?_, ?_, ?_⟩
          · rw [he2, he1]
            simp [expandedIdsL, List.reverse_append, List.append_assoc]
          · intro x hx
            rcases List.mem_append.mp (by simpa [expandedIdsL] using hx) with hx1 | hx2
            · exact hm1 x hx1
            · intro hv
              exact hm2 x hx2 (by rw [he1]; exact List.mem_append_right _ hv)
          · show (expandedIdsL (nd :: nds)).Nodup
            rw [show expandedIdsL (nd :: nds) = expandedIds nd ++ expandedIdsL nds from rfl]
            rw [List.nodup_append]
            refine ⟨hnd1, hnd2, ?_⟩
            intro x hx1 hx2
            have hxv1 : x ∈ v1 := by
              rw [he1]
              exact List.mem_append_left _ (List.mem_reverse.mpr hx1)
            exact hm2 x hx2 hxv1

theorem buildTreeNodeFuel_visited : ∀ (fuel : Nat) (t : FamilyTree) (p : Person)
    (visited : List Int) (nd : TreeNode) (v' : List Int),
    buildTreeNodeFuel fuel t p visited = some (nd, v') →
      v' = (expandedIds nd).reverse ++ visited ∧
      (∀ x ∈ expandedIds nd, x ∉ visited) ∧ (expandedIds nd).Nodup := by
  intro fuel
  induction fuel with
  | zero => intro t p visited nd v' h; simp [buildTreeNodeFuel] at h
  | succ f ih =>
    intro t p visited nd v' h
    simp only [buildTreeNodeFuel] at h
    by_cases hv : p.id ∈ visited
    · rw [if_pos hv] at h
      simp only [Option.some.injEq, Prod.mk.injEq] at h
      obtain ⟨rfl, rfl⟩ := h
      simp [expandedIds]
    · rw [if_neg hv] at h
      cases hb : buildChildrenAux (buildTreeNodeFuel f t) t p.child_ids (p.id :: visited) with
      | none => rw [hb] at h; exact absurd h (by simp)
      | some pr =>
        obtain ⟨cs, v2⟩ := pr
        rw [hb] at h
        simp only [Option.some.injEq, Prod.mk.injEq] at h
        obtain ⟨rfl, rfl⟩ := h
        obtain ⟨he, hm, hnd⟩ :=
          buildChildrenAux_visited (buildTreeNodeFuel f t) t (ih t)
            p.child_ids (p.id :: visited) cs v2 hb
        have hexp : expandedIds (.node p (p.spouse_ids.filterMap (getPerson t)) cs false) =
            p.id :: expandedIdsL cs := rfl
        refine ⟨?_, ?_, ?_⟩
        · rw [hexp, he]
          simp [List.reverse_cons, List.append_assoc]
        · intro x hx
          rw [hexp] at hx
          rcases List.mem_cons.mp hx with rfl | hx
          · exact hv
          · intro hvx
            exact hm x hx (List.mem_cons_of_mem _ hvx)
        · rw [hexp, List.nodup_cons]
          refine ⟨?_, hnd⟩
          intro hmem
          exact hm p.id hmem (List.mem_cons_self _ _)

/-- Children loop adequacy: under a visited-set predicate preserved by
growth, the loop never returns `none` when the recursive call does not. -/
theorem buildChildrenAux_isSome
    (f : Person → List Int → Option (TreeNode × List Int)) (t : FamilyTree)
    (good : List Int → Prop)
    (hmono : ∀ l v, good v → good (l ++ v))
    (hf_inv : ∀ p visited nd v', f p visited = some (nd, v') → ∃ l, v' = l ++ visited)
    (hf_some : ∀ p visited, p.id ∈ idsOf t → good visited → (f p visited).isSome = true) :
    ∀ cids visited, good visited → (buildChildrenAux f t cids visited).isSome = true := by
  intro cids
  induction cids with
  | nil => intro visited _; simp [buildChildrenAux]
  | cons cid rest ih =>
    intro visited hgood
    simp only [buildChildrenAux]
    cases hg : getPerson t cid with
    | none => exact ih visited hgood
    | some child =>
      have hmem : child.id ∈ idsOf t := by
        obtain ⟨hc, _⟩ := getPerson_mem hg
        exact List.mem_map_of_mem Person.id hc
      have hs := hf_some child visited hmem hgood
      cases hn : f child visited with
      | none => rw [hn] at hs; exact absurd hs (by simp)
      | some pr =>
        obtain ⟨nd, v1⟩ := pr
        obtain ⟨l, rfl⟩ := hf_inv child visited nd v1 hn
        have hrest := ih (l ++ visited) (hmono l visited hgood)
        cases hr : buildChildrenAux f t rest (l ++ visited) with
        | none => rw [hr] at hrest; exact absurd hrest (by simp)
        | some pr2 => simp [hn, hr]

/-- Fuel adequacy: one unit of fuel per stored person suffices, so the
recursion always produces a result for any person of the collection. -/
theorem buildTreeNodeFuel_isSome : ∀ (fuel : Nat) (t : FamilyTree) (p : Person)
    (visited : List Int), p.id ∈ idsOf t → freshCount t visited < fuel →
    (buildTreeNodeFuel fuel t p visited).isSome = true := by
  intro fuel
  induction fuel with
  | zero => intro t p visited _ h; exact absurd h (Nat.not_lt_zero _)
  | succ f ih =>
    intro t p visited hmem hcount
    by_cases hv : p.id ∈ visited
    · simp [buildTreeNodeFuel, hv]
    · simp only [buildTreeNodeFuel, if_neg hv]
      have hgood : freshCount t (p.id :: visited) < f := by
        have hlt := freshCount_cons_lt hmem hv
        omega
      have hch := buildChildrenAux_isSome (buildTreeNodeFuel f t) t
        (fun vis => freshCount t vis < f)
        (fun l v hg => lt_of_le_of_lt (freshCount_append_le t l v) hg)
        (fun p' vis nd v' hcall =>
          ⟨(expandedIds nd).reverse, (buildTreeNodeFuel_visited f t p' vis nd v' hcall).1⟩)
        (fun p' vis hm hg => ih t p' vis hm hg)
        p.child_ids (p.id :: visited) hgood
      cases hb : buildChildrenAux (buildTreeNodeFuel f t) t p.child_ids (p.id :: visited) with
      | none => rw [hb] at hch; exact absurd hch (by simp)
      | some pr =>
        obtain ⟨cs, v2⟩ := pr
        simp [hb]

/-- Truncated nodes produced by the children loop are bare leaves. -/
theorem buildChildrenAux_truncOk
    (f : Person → List Int → Option (TreeNode × List Int)) (t : FamilyTree)
    (hf : ∀ p visited nd v', f p visited = some (nd, v') → truncOk nd = true) :
    ∀ cids visited ns v', buildChildrenAux f t cids visited = some (ns, v') →
      truncOkL ns = true := by
  intro cids
  induction cids with
  | nil =>
    intro visited ns v' h
    simp only [buildChildrenAux, Option.some.injEq, Prod.mk.injEq] at h
    obtain ⟨rfl, rfl⟩ := h
    rfl
  | cons cid rest ih =>
    intro visited ns v' h
    simp only [buildChildrenAux] at h
    split at h
    · exact ih visited ns v' h
    · rename_i child hg
      split at h
      · exact Option.noConfusion h
      · rename_i nd v1 hn
        split at h
        · exact Option.noConfusion h
        · rename_i nds v2 hr
          simp only [Option.some.injEq, Prod.mk.injEq] at h
          obtain ⟨rfl, rfl⟩ := h
          show truncOkL (nd :: nds) = true
          rw [show truncOkL (nd :: nds) = (truncOk nd && truncOkL nds) from rfl]
          rw [hf child visited nd v1 hn, ih v1 nds v2 hr]
          rfl

/-- Truncated nodes produced by `_build_tree_node` are bare leaves. -/
theorem buildTreeNodeFuel_truncOk : ∀ (fuel : Nat) (t : FamilyTree) (p : Person)
    (visited : List Int) (nd : TreeNode) (v' : List Int),
    buildTreeNodeFuel fuel t p visited = some (nd, v') → truncOk nd = true := by
  intro fuel
  induction fuel with
  | zero => intro t p visited nd v' h; simp [buildTreeNodeFuel] at h
  | succ f ih =>
    intro t p visited nd v' h
    simp only [buildTreeNodeFuel] at h
    by_cases hv : p.id ∈ visited
    · rw [if_pos hv] at h
      simp only [Option.some.injEq, Prod.mk.injEq] at h
      obtain ⟨rfl, rfl⟩ := h
      rfl
    · rw [if_neg hv] at h
      cases hb : buildChildrenAux (buildTreeNodeFuel f t) t p.child_ids (p.id :: visited) with
      | none => rw [hb] at h; exact absurd h (by simp)
      | some pr =>
        obtain ⟨cs, v2⟩ := pr
        rw [hb] at h
        simp only [Option.some.injEq, Prod.mk.injEq] at h
        obtain ⟨rfl, rfl⟩ := h
        have hcs := buildChildrenAux_truncOk (buildTreeNodeFuel f t) t
          (fun p' vis nd' v'' hcall => ih t p' vis nd' v'' hcall)
          p.child_ids (p.id :: visited) cs v2 hb
        show truncOk (.node p (p.spouse_ids.filterMap (getPerson t)) cs false) = true
        rw [show truncOk (.node p (p.spouse_ids.filterMap (getPerson t)) cs false)
            = ((!false || ((p.spouse_ids.filterMap (getPerson t)).isEmpty && cs.isEmpty))
              && truncOkL cs) from rfl]
        rw [hcs]
        rfl

/-! ## Helper lemmas for persistence -/

/-- A stored person is a fixed point of the constructor's validators:
re-running each validator on the stored value returns it unchanged.
Persons built by `add_person` satisfy this; `update_person` can break it
(it never re-checks `death_year >= birth_year` when `birth_year` alone
changes, and `validate_city` can store `""` for a whitespace-only city,
which reloads as `None`). -/
def Person.wf (p : Person) : Prop :=
  validate_name p.name = .ok p.name ∧
  validate_year p.birth_year "birth_year" = .ok p.birth_year ∧
  validate_date (dateOut p.birth_date) "birth_date" = .ok p.birth_date ∧
  validate_death_year p.death_year p.birth_year = .ok p.death_year ∧
  validate_death_date (dateOut p.death_date) p.birth_date p.birth_year = .ok p.death_date ∧
  validate_gender p.gender = .ok p.gender ∧
  validate_city p.birth_city = .ok p.birth_city

theorem fromDict_toDict {p : Person} (h : Person.wf p) : fromDict (toDict p) = .ok p := by
  obtain ⟨h1, h2, h3, h4, h5, h6, h7⟩ := h
  obtain ⟨id, nm, byr, dyr, g, bd, dd, city, pids, sids, cids⟩ := p
  simp only at h1 h2 h3 h4 h5 h6 h7
  simp [fromDict, toDict, Person.make, h1, h2, h3, h4, h5, h6, h7]

theorem dictInsert_fresh {acc : List Person} {p : Person}
    (h : ∀ q ∈ acc, q.id ≠ p.id) : dictInsert acc p = acc ++ [p] := by
  have hnc : ¬ acc.any (fun q => q.id == p.id) = true := by
    rw [List.any_eq_true]
    rintro ⟨q, hq, hqid⟩
    exact h q hq (by simpa using hqid)
  unfold dictInsert
  rw [if_neg hnc]

theorem loadPeople_map_toDict (l : List Person) (acc : List Person)
    (hwf : ∀ p ∈ l, Person.wf p)
    (hfresh : ∀ p ∈ l, ∀ q ∈ acc, q.id ≠ p.id)
    (hnodup : (l.map Person.id).Nodup) :
    loadPeople (l.map toDict) acc = .ok (acc ++ l) := by
  induction l generalizing acc with
  | nil => simp [loadPeople]
  | cons p rest ih =>
    rw [List.map_cons, List.nodup_cons] at hnodup
    have hfresh2 : ∀ q ∈ rest, ∀ r ∈ acc ++ [p], r.id ≠ q.id := by
      intro q hq r hr
      rcases List.mem_append.mp hr with hr | hr
      · exact hfresh q (List.mem_cons_of_mem _ hq) r hr
      · simp only [List.mem_singleton] at hr
        subst hr
        intro he
        apply hnodup.1
        rw [he]
        exact List.mem_map_of_mem Person.id hq
    simp only [List.map_cons, loadPeople]
    rw [fromDict_toDict (hwf p (List.mem_cons_self p rest))]
    show loadPeople (List.map toDict rest) (dictInsert acc p) = Except.ok (acc ++ p :: rest)
    rw [dictInsert_fresh (fun q hq => hfresh p (List.mem_cons_self p rest) q hq)]
    rw [ih (acc ++ [p]) (fun q hq => hwf q (List.mem_cons_of_mem _ hq)) hfresh2 hnodup.2]
    simp

/-- Position of a field in `update_person`'s assignment order. -/
def fieldIdx (f : String) : Nat :=
  if f = "name" then 0
  else if f = "birth_year" then 1
  else if f = "birth_date" then 2
  else if f = "death_year" then 3
  else if f = "death_date" then 4
  else if f = "gender" then 5
  else 6

/-- A one-person state used by concrete counterexamples/witnesses. -/
def pAl : Person := ⟨1, "Al", none, none, none, none, none, none, [], [], []⟩

def tAl : FamilyTree := ⟨[pAl], 2⟩

/-! ## Claims -/

/-- **C1** — counterexample.  The claim states that when `update_person`
raises a `ValidationError` the targeted person's stored fields are
exactly as before the call.  But `update_person(1, name="Bob",
birth_year=100)` first assigns the validated name and only then fails on
the year, leaving the stored person with the new name `"Bob"`. -/
theorem C1_update_atomicity_cex :
    (updatePerson tAl 1 (some "Bob") (some 100) none none .noneV .noneV none).1 =
      Except.error (.invalid ⟨"birth_year", "Year must be between 1500 and 2100"⟩) ∧
    getPerson (updatePerson tAl 1 (some "Bob") (some 100) none none .noneV .noneV none).2 1 =
      some { pAl with name := "Bob" } ∧
    ({ pAl with name := "Bob" } : Person) ≠ pAl := by
  refine ⟨rfl, rfl, by decide⟩

/-- **C1** — amended claim.  When `update_person` raises a
`ValidationError`, the person may be partially mutated: each field is
validated immediately before its own assignment, so the failing field and
every field later in the processing order (name, birth_year, birth_date,
death_year, death_date, gender, birth_city) keep their previous values,
and the id and edge lists are never touched; fields processed earlier may
retain newly assigned values. -/
theorem C1_update_error_frame
    (t : FamilyTree) (pid : Int) (p0 : Person)
    (nameA : Option String) (byA dyA : Option Int) (gA : Option String)
    (bdA ddA : DateField) (cityA : Option String)
    (e : ValidationError) (t' : FamilyTree)
    (hp : getPerson t pid = some p0)
    (herr : updatePerson t pid nameA byA dyA gA bdA ddA cityA = (.error (.invalid e), t')) :
    ∃ q, t' = { t with people := setPerson t.people pid q } ∧
      q.id = p0.id ∧ q.parent_ids = p0.parent_ids ∧ q.spouse_ids = p0.spouse_ids ∧
      q.child_ids = p0.child_ids ∧
      (fieldIdx e.field ≤ 0 → q.name = p0.name) ∧
      (fieldIdx e.field ≤ 1 → q.birth_year = p0.birth_year) ∧
      (fieldIdx e.field ≤ 2 → q.birth_date = p0.birth_date) ∧
      (fieldIdx e.field ≤ 3 → q.death_year = p0.death_year) ∧
      (fieldIdx e.field ≤ 4 → q.death_date = p0.death_date) ∧
      (fieldIdx e.field ≤ 5 → q.gender = p0.gender) ∧
      (fieldIdx e.field ≤ 6 → q.birth_city = p0.birth_city) := by
  rw [updatePerson_eq_of_found nameA byA dyA gA bdA ddA cityA hp] at herr
  cases hF : updateFields p0 nameA byA dyA gA bdA ddA cityA with
  | ok q2 => rw [hF] at herr; simp at herr
  | error eq2 =>
    obtain ⟨e2, q⟩ := eq2
    rw [hF] at herr
    obtain rfl : e2 = e := by simpa using congrArg Prod.fst herr
    have ht : t' = { t with people := setPerson t.people pid q } :=
      (congrArg Prod.snd herr).symm
    unfold updateFields at hF
    refine ⟨q, ht, ?_⟩
    rcases fieldStep_err_inv hF with h6 | ⟨hok6, herr7⟩
    · rcases fieldStep_err_inv h6 with h5 | ⟨hok5, herr6⟩
      · rcases fieldStep_err_inv h5 with h4 | ⟨hok4, herr5⟩
        · rcases fieldStep_err_inv h4 with h3 | ⟨hok3, herr4⟩
          · rcases fieldStep_err_inv h3 with h2 | ⟨hok2, herr3⟩
            · rcases fieldStep_err_inv h2 with h1 | ⟨hok1, herr2⟩
              · rcases fieldStep_err_inv h1 with h0 | ⟨hok0, herr1⟩
                · exact absurd h0 (by simp)
                · obtain rfl : p0 = q := Except.ok.inj hok0
                  exact ⟨rfl, rfl, rfl, rfl, fun _ => rfl, fun _ => rfl, fun _ => rfl,
                    fun _ => rfl, fun _ => rfl, fun _ => rfl, fun _ => rfl⟩
              · obtain ⟨p01, h0, hn⟩ := fieldStep_ok_inv hok1
                obtain rfl := Except.ok.inj h0
                have hq := updName_frame hn
                have hef := updBirthYear_err_field herr2
                exact ⟨by rw [hq], by rw [hq], by rw [hq], by rw [hq],
                  fun hf => absurd hf (by rw [hef]; decide),
                  fun _ => by rw [hq], fun _ => by rw [hq], fun _ => by rw [hq],
                  fun _ => by rw [hq], fun _ => by rw [hq], fun _ => by rw [hq]⟩
            · obtain ⟨p1, ha1, hby⟩ := fieldStep_ok_inv hok2
              obtain ⟨p01, h0, hn⟩ := fieldStep_ok_inv ha1
              obtain rfl := Except.ok.inj h0
              have hq := updBirthYear_frame hby
              rw [updName_frame hn] at hq
              have hef := updBirthDate_err_field herr3
              exact ⟨by rw [hq], by rw [hq], by rw [hq], by rw [hq],
                fun hf => absurd hf (by rw [hef]; decide),
                fun hf => absurd hf (by rw [hef]; decide),
                fun _ => by rw [hq], fun _ => by rw [hq], fun _ => by rw [hq],
                fun _ => by rw [hq], fun _ => by rw [hq]⟩
          · obtain ⟨p2, ha2, hbd⟩ := fieldStep_ok_inv hok3
            obtain ⟨p1, ha1, hby⟩ := fieldStep_ok_inv ha2
            obtain ⟨p01, h0, hn⟩ := fieldStep_ok_inv ha1
            obtain rfl := Except.ok.inj h0
            have hq := updBirthDate_frame hbd
            rw [updBirthYear_frame hby] at hq
            rw [updName_frame hn] at hq
            have hef := updDeathYear_err_field herr4
            exact ⟨by rw [hq], by rw [hq], by rw [hq], by rw [hq],
              fun hf => absurd hf (by rw [hef]; decide),
              fun hf => absurd hf (by rw [hef]; decide),
              fun hf => absurd hf (by rw [hef]; decide),
              fun _ => by rw [hq], fun _ => by rw [hq], fun _ => by rw [hq],
              fun _ => by rw [hq]⟩
        · obtain ⟨p3, ha3, hdy⟩ := fieldStep_ok_inv hok4
          obtain ⟨p2, ha2, hbd⟩ := fieldStep_ok_inv ha3
          obtain ⟨p1, ha1, hby⟩ := fieldStep_ok_inv ha2
          obtain ⟨p01, h0, hn⟩ := fieldStep_ok_inv ha1
          obtain rfl := Except.ok.inj h0
          have hq := updDeathYear_frame hdy
          rw [updBirthDate_frame hbd] at hq
          rw [updBirthYear_frame hby] at hq
          rw [updName_frame hn] at hq
          have hef := updDeathDate_err_field herr5
          exact ⟨by rw [hq], by rw [hq], by rw [hq], by rw [hq],
            fun hf => absurd hf (by rw [hef]; decide),
            fun hf => absurd hf (by rw [hef]; decide),
            fun hf => absurd hf (by rw [hef]; decide),
            fun hf => absurd hf (by rw [hef]; decide),
            fun _ => by rw [hq], fun _ => by rw [hq], fun _ => by rw [hq]⟩
      · obtain ⟨p4, ha4, hdd⟩ := fieldStep_ok_inv hok5
        obtain ⟨p3, ha3, hdy⟩ := fieldStep_ok_inv ha4
        obtain ⟨p2, ha2, hbd⟩ := fieldStep_ok_inv ha3
        obtain ⟨p1, ha1, hby⟩ := fieldStep_ok_inv ha2
        obtain ⟨p01, h0, hn⟩ := fieldStep_ok_inv ha1
        obtain rfl := Except.ok.inj h0
        have hq := updDeathDate_frame hdd
        rw [updDeathYear_frame hdy] at hq
        rw [updBirthDate_frame hbd] at hq
        rw [updBirthYear_frame hby] at hq
        rw [updName_frame hn] at hq
        have hef := updGender_err_field herr6
        exact ⟨by rw [hq], by rw [hq], by rw [hq], by rw [hq],
          fun hf => absurd hf (by rw [hef]; decide),
          fun hf => absurd hf (by rw [hef]; decide),
          fun hf => absurd hf (by rw [hef]; decide),
          fun hf => absurd hf (by rw [hef]; decide),
          fun hf => absurd hf (by rw [hef]; decide),
          fun _ => by rw [hq], fun _ => by rw [hq]⟩
    · obtain ⟨p5, ha5, hg⟩ := fieldStep_ok_inv hok6
      obtain ⟨p4, ha4, hdd⟩ := fieldStep_ok_inv ha5
      obtain ⟨p3, ha3, hdy⟩ := fieldStep_ok_inv ha4
      obtain ⟨p2, ha2, hbd⟩ := fieldStep_ok_inv ha3
      obtain ⟨p1, ha1, hby⟩ := fieldStep_ok_inv ha2
      obtain ⟨p01, h0, hn⟩ := fieldStep_ok_inv ha1
      obtain rfl := Except.ok.inj h0
      have hq := updGender_frame hg
      rw [updDeathDate_frame hdd] at hq
      rw [updDeathYear_frame hdy] at hq
      rw [updBirthDate_frame hbd] at hq
      rw [updBirthYear_frame hby] at hq
      rw [updName_frame hn] at hq
      have hef := updCity_err_field herr7
      exact ⟨by rw [hq], by rw [hq], by rw [hq], by rw [hq],
        fun hf => absurd hf (by rw [hef]; decide),
        fun hf => absurd hf (by rw [hef]; decide),
        fun hf => absurd hf (by rw [hef]; decide),
        fun hf => absurd hf (by rw [hef]; decide),
        fun hf => absurd hf (by rw [hef]; decide),
        fun hf => absurd hf (by rw [hef]; decide),
        fun _ => by rw [hq]⟩

/-- **C1** — witness for the amended theorem at a concrete input. -/
theorem C1_update_error_frame_witness :
    ∃ q, (updatePerson tAl 1 (some "Bob") (some 100) none none .noneV .noneV none).2 =
        { tAl with people := setPerson tAl.people 1 q } ∧
      q.id = pAl.id ∧ q.parent_ids = pAl.parent_ids ∧ q.spouse_ids = pAl.spouse_ids ∧
      q.child_ids = pAl.child_ids ∧
      (fieldIdx "birth_year" ≤ 0 → q.name = pAl.name) ∧
      (fieldIdx "birth_year" ≤ 1 → q.birth_year = pAl.birth_year) ∧
      (fieldIdx "birth_year" ≤ 2 → q.birth_date = pAl.birth_date) ∧
      (fieldIdx "birth_year" ≤ 3 → q.death_year = pAl.death_year) ∧
      (fieldIdx "birth_year" ≤ 4 → q.death_date = pAl.death_date) ∧
      (fieldIdx "birth_year" ≤ 5 → q.gender = pAl.gender) ∧
      (fieldIdx "birth_year" ≤ 6 → q.birth_city = pAl.birth_city) :=
  C1_update_error_frame tAl 1 pAl (some "Bob") (some 100) none none .noneV .noneV none
    ⟨"birth_year", "Year must be between 1500 and 2100"⟩
    (updatePerson tAl 1 (some "Bob") (some 100) none none .noneV .noneV none).2
    rfl rfl

/-- **C10** (confirmed): in `update_person`, `None` leaves a field
unchanged and `name`, `birth_year`, `death_year` can never become
absent/empty; an empty string clears `birth_date`, `death_date`,
`gender`, `birth_city` to `None`, while an empty string for `name`
raises a `ValidationError`. -/
theorem C10_update_none_empty (t : FamilyTree) (pid : Int) (p0 : Person)
    (nameA : Option String) (byA dyA : Option Int) (gA : Option String)
    (bdA ddA : DateField) (cityA : Option String)
    (hp : getPerson t pid = some p0) :
    (∀ q t', updatePerson t pid nameA byA dyA gA bdA ddA cityA = (.ok q, t') →
      (nameA = none → q.name = p0.name) ∧
      (byA = none → q.birth_year = p0.birth_year) ∧
      (dyA = none → q.death_year = p0.death_year) ∧
      (q.name = "" → p0.name = "") ∧
      (q.birth_year = none → p0.birth_year = none) ∧
      (q.death_year = none → p0.death_year = none) ∧
      (bdA = .emptyV → q.birth_date = none) ∧
      (ddA = .emptyV → q.death_date = none) ∧
      (gA = some "" → q.gender = none) ∧
      (cityA = some "" → q.birth_city = none)) ∧
    (nameA = some "" →
      (updatePerson t pid nameA byA dyA gA bdA ddA cityA).1 =
        .error (.invalid ⟨"name", "Name cannot be empty"⟩)) := by
  constructor
  · intro q t' hok
    have hUF : updateFields p0 nameA byA dyA gA bdA ddA cityA = .ok q := by
      rw [updatePerson_eq_of_found nameA byA dyA gA bdA ddA cityA hp] at hok
      cases hF : updateFields p0 nameA byA dyA gA bdA ddA cityA with
      | error ep =>
        obtain ⟨e1, q1⟩ := ep
        rw [hF] at hok
        simp at hok
      | ok q2 =>
        rw [hF] at hok
        have hq := Except.ok.inj (congrArg Prod.fst hok)
        rw [← hq]
    unfold updateFields at hUF
    obtain ⟨p6, h6, hc⟩ := fieldStep_ok_inv hUF
    obtain ⟨p5, h5, hg⟩ := fieldStep_ok_inv h6
    obtain ⟨p4, h4, hdd⟩ := fieldStep_ok_inv h5
    obtain ⟨p3, h3, hdy⟩ := fieldStep_ok_inv h4
    obtain ⟨p2, h2, hbd⟩ := fieldStep_ok_inv h3
    obtain ⟨p1, h1, hby⟩ := fieldStep_ok_inv h2
    obtain ⟨p01, h0, hn⟩ := fieldStep_ok_inv h1
    obtain rfl := Except.ok.inj h0
    have fn := updName_frame hn
    have fby := updBirthYear_frame hby
    have fbd := updBirthDate_frame hbd
    have fdy := updDeathYear_frame hdy
    have fdd := updDeathDate_frame hdd
    have fg := updGender_frame hg
    have fc := updCity_frame hc
    have cname : q.name = p1.name := by rw [fc, fg, fdd, fdy, fbd, fby]
    have cby : q.birth_year = p2.birth_year := by rw [fc, fg, fdd, fdy, fbd]
    have cbd : q.birth_date = p3.birth_date := by rw [fc, fg, fdd, fdy]
    have cdy : q.death_year = p4.death_year := by rw [fc, fg, fdd]
    have cdd : q.death_date = p5.death_date := by rw [fc, fg]
    have cg : q.gender = p6.gender := by rw [fc]
    refine ⟨?_, ?_, ?_, ?_, ?_, ?_, ?_, ?_, ?_, ?_⟩
    · intro hN; subst hN
      rw [cname, updName_none_eq hn]
    · intro hB; subst hB
      rw [cby, updBirthYear_none_eq hby, fn]
    · intro hD; subst hD
      rw [cdy, updDeathYear_none_eq hdy, fbd, fby, fn]
    · cases nameA with
      | none =>
        intro hq
        rw [updName_none_eq hn] at cname
        rw [← cname]
        exact hq
      | some n =>
        intro hq
        obtain ⟨v, hv, hpeq⟩ := updName_some_inv hn
        have hqv : q.name = v := by rw [cname, hpeq]
        exact absurd (hqv.symm.trans hq) (validate_name_ok_ne hv)
    · cases byA with
      | none =>
        intro h
        rw [cby, updBirthYear_none_eq hby, fn] at h
        exact h
      | some y =>
        intro h
        rw [cby, updBirthYear_some_val hby] at h
        simp at h
    · cases dyA with
      | none =>
        intro h
        rw [cdy, updDeathYear_none_eq hdy, fbd, fby, fn] at h
        exact h
      | some y =>
        intro h
        rw [cdy, updDeathYear_some_val hdy] at h
        simp at h
    · intro hE; subst hE
      rw [cbd, updBirthDate_empty_eq hbd]
    · intro hE; subst hE
      rw [cdd, updDeathDate_empty_eq hdd]
    · intro hE; subst hE
      rw [cg, updGender_empty_eq hg]
    · intro hE; subst hE
      rw [updCity_empty_eq hc]
  · intro hN; subst hN
    rw [updatePerson_eq_of_found (some "") byA dyA gA bdA ddA cityA hp]
    have hred : updateFields p0 (some "") byA dyA gA bdA ddA cityA =
        .error (⟨"name", "Name cannot be empty"⟩, p0) := rfl
    rw [hred]

/-- **C10** — witness at a concrete input. -/
theorem C10_update_none_empty_witness :
    (updatePerson tAl 1 (some "") none none none .noneV .noneV none).1 =
      .error (.invalid ⟨"name", "Name cannot be empty"⟩) :=
  (C10_update_none_empty tAl 1 pAl (some "") none none none .noneV .noneV none rfl).2 rfl

/-- A person record with the required `"id"` key missing. -/
def pdNoId : PersonData := ⟨none, none, none, none, none, .noneV, .noneV, none, [], [], []⟩

/-- A parsable document whose single person record is missing `"id"`. -/
def docBad : Document := .parsed (some 5) (some [pdNoId])

/-- **C2** — counterexample.  The claim states that `load` on an existing
but structurally invalid document leaves `people` and `next_id`
unchanged.  On a document that parses as JSON but whose person record
lacks `"id"`, `load` raises the descriptive error, yet the state was
already overwritten: `next_id` became 5 and the collection was reset. -/
theorem C2_load_mutation_cex :
    (load tAl (some docBad)).1 = .error (.valueError "Error loading file: 'id'") ∧
    (load tAl (some docBad)).2 = ⟨[], 5⟩ ∧
    (⟨[], 5⟩ : FamilyTree) ≠ tAl := by
  refine ⟨rfl, rfl, by decide⟩

/-- **C2** — amended claim: `load` on a document that fails JSON parsing
raises a descriptive `ValueError` and leaves the in-memory state
unchanged; but on a JSON-parsable document with a structurally invalid
person record it raises the descriptive error only after `next_id` has
been replaced (by the document's value, default 1) and the collection
reset to the partially rebuilt list. -/
theorem C2_load_amended (t : FamilyTree) (nid : Option Int) (pds : Option (List PersonData)) :
    load t (some .unparsable) = (.error (.valueError "Error loading file: Expecting value"), t) ∧
    (load t (some (.parsed nid pds))).2.next_id = nid.getD 1 ∧
    (∀ k acc, loadPeople (pds.getD []) [] = .error (.keyError k, acc) →
      load t (some (.parsed nid pds)) =
        (.error (.valueError ("Error loading file: '" ++ k ++ "'")), ⟨acc, nid.getD 1⟩)) := by
  refine ⟨rfl, ?_, ?_⟩
  · simp only [load]
    cases hl : loadPeople (pds.getD []) [] with
    | error ep =>
      obtain ⟨fe, acc⟩ := ep
      cases fe with
      | keyError k => rfl
      | invalid e => rfl
    | ok ppl => rfl
  · intro k acc hl
    simp only [load]
    rw [hl]

/-- **C2** — witness for the amended theorem at concrete inputs. -/
theorem C2_load_amended_witness :
    load tAl (some .unparsable) =
      (.error (.valueError "Error loading file: Expecting value"), tAl) ∧
    load tAl (some docBad) = (.error (.valueError "Error loading file: 'id'"), ⟨[], 5⟩) :=
  ⟨(C2_load_amended tAl (some 5) (some [pdNoId])).1,
   (C2_load_amended tAl (some 5) (some [pdNoId])).2.2 "id" [] rfl⟩

/-- The one-person state reachable by `add_person("Al", 1950, 1990)`
followed by `update_person(1, birth_year=2000)`: stored death year
precedes stored birth year. -/
def pBadYears : Person := ⟨1, "Al", some 2000, some 1990, none, none, none, none, [], [], []⟩

def tBadYears : FamilyTree := ⟨[pBadYears], 2⟩

/-- **C7** — counterexample.  The claim quantifies over every graph
state.  The state `tBadYears` is reachable (add then update of
`birth_year` alone, which `update_person` does not cross-check against
the stored `death_year`), and `load(save(tBadYears))` raises a
`ValidationError` instead of reconstructing the collection. -/
theorem C7_roundtrip_cex :
    addPerson FamilyTree.empty "Al" (some 1950) (some 1990) none .noneV .noneV none =
      .ok (⟨[⟨1, "Al", some 1950, some 1990, none, none, none, none, [], [], []⟩], 2⟩,
           ⟨1, "Al", some 1950, some 1990, none, none, none, none, [], [], []⟩) ∧
    updatePerson ⟨[⟨1, "Al", some 1950, some 1990, none, none, none, none, [], [], []⟩], 2⟩
        1 none (some 2000) none none .noneV .noneV none = (.ok pBadYears, tBadYears) ∧
    load FamilyTree.empty (some (save tBadYears)) =
      (.error (.invalid ⟨"death_year", "Death year cannot be before birth year"⟩), ⟨[], 2⟩) := by
  refine ⟨rfl, rfl, rfl⟩

/-- **C7** — amended claim: for every state whose stored persons are
fixed points of the constructor validators (as `add_person` guarantees)
and whose ids are pairwise distinct, saving and then loading (from any
prior in-memory state) reconstructs exactly the same collection — same
ids, fields, edge lists — and the same `next_id`. -/
theorem C7_roundtrip (t0 t : FamilyTree) (hwf : ∀ p ∈ t.people, Person.wf p)
    (hnodup : (t.people.map Person.id).Nodup) :
    load t0 (some (save t)) = (.ok true, t) := by
  simp only [save, load, Option.getD_some]
  rw [loadPeople_map_toDict t.people [] hwf (by simp) hnodup]
  simp

/-- **C7** — witness: round trip at a concrete well-formed state. -/
theorem C7_roundtrip_witness :
    load FamilyTree.empty (some (save tAl)) = (.ok true, tAl) :=
  C7_roundtrip FamilyTree.empty tAl
    (by
      intro p hp
      simp only [tAl, List.mem_singleton] at hp
      subst hp
      exact ⟨rfl, rfl, rfl, rfl, rfl, rfl, rfl⟩)
    (by decide)

/-- Persons reachable by loading a document whose edge lists contain a
duplicated id (`from_dict` copies edge lists verbatim). -/
def pB2 : Person := ⟨2, "Bo", none, none, none, none, none, none, [1, 1], [], []⟩

def tDup : FamilyTree := ⟨[pAl, pB2], 3⟩

def docDup : Document :=
  .parsed (some 3)
    (some [⟨some 1, some "Al", none, none, none, .noneV, .noneV, none, [], [], []⟩,
           ⟨some 2, some "Bo", none, none, none, .noneV, .noneV, none, [1, 1], [], []⟩])

/-- **C6** — counterexample.  The claim quantifies over every state in
which the person is stored.  `tDup` is reachable via `load` (edge lists
are copied verbatim, undeduplicated), and `remove_person(1)` — whose
scrubbing uses Python's `list.remove`, deleting only the first
occurrence — leaves id 1 behind in Bo's `parent_ids`. -/
theorem C6_remove_scrub_cex :
    load FamilyTree.empty (some docDup) = (.ok true, tDup) ∧
    removePerson tDup 1 =
      .ok (⟨[⟨2, "Bo", none, none, none, none, none, none, [1], [], []⟩], 3⟩, pAl) ∧
    (1 : Int) ∈ ([1] : List Int) := by
  refine ⟨rfl, rfl, by decide⟩

/-- **C6** — amended claim: for every state in which the person is
stored and no entity's edge list mentions that id more than once (which
the in-memory edge operations guarantee), `remove_person(id)` succeeds,
deletes the entity, purges id from every remaining entity's parent,
spouse and child lists, and returns the removed person (its own
non-edge fields intact). -/
theorem C6_remove_scrub (t : FamilyTree) (pid : Int) (p : Person)
    (hp : getPerson t pid = some p)
    (hdup : ∀ q ∈ t.people, List.count pid q.parent_ids ≤ 1 ∧
      List.count pid q.spouse_ids ≤ 1 ∧ List.count pid q.child_ids ≤ 1) :
    ∃ t' p', removePerson t pid = .ok (t', p') ∧
      (∀ q ∈ t'.people, pid ∉ q.parent_ids ∧ pid ∉ q.spouse_ids ∧ pid ∉ q.child_ids) ∧
      (∀ q ∈ t'.people, q.id ≠ pid) ∧
      getPerson t' pid = none ∧
      p'.id = p.id ∧ p'.name = p.name ∧ p'.birth_year = p.birth_year ∧
      p'.death_year = p.death_year ∧ p'.gender = p.gender ∧ p'.birth_date = p.birth_date ∧
      p'.death_date = p.death_date ∧ p'.birth_city = p.birth_city := by
  have herase : ∀ (l : List Int), List.count pid l ≤ 1 → pid ∉ l.erase pid := by
    intro l hc
    rw [← List.count_eq_zero, List.count_erase_self]
    omega
  refine ⟨⟨(t.people.map (scrub pid)).filter (fun q => q.id != pid), t.next_id⟩,
    scrub pid p, ?_, ?_, ?_, ?_, rfl, rfl, rfl, rfl, rfl, rfl, rfl, rfl⟩
  · unfold removePerson
    rw [hp]
  · intro q hq
    rw [List.mem_filter] at hq
    obtain ⟨q0, hq0, rfl⟩ := List.mem_map.mp hq.1
    obtain ⟨hd1, hd2, hd3⟩ := hdup q0 hq0
    exact ⟨herase _ hd1, herase _ hd2, herase _ hd3⟩
  · intro q hq
    rw [List.mem_filter] at hq
    simpa using hq.2
  · unfold getPerson
    rw [List.find?_eq_none]
    intro q hq
    rw [List.mem_filter] at hq
    simpa using hq.2

/-- **C6** — witness at a concrete input. -/
theorem C6_remove_scrub_witness :
    ∃ t' p', removePerson tAl 1 = .ok (t', p') ∧
      (∀ q ∈ t'.people, (1 : Int) ∉ q.parent_ids ∧ (1 : Int) ∉ q.spouse_ids ∧
        (1 : Int) ∉ q.child_ids) ∧
      (∀ q ∈ t'.people, q.id ≠ 1) ∧
      getPerson t' 1 = none ∧
      p'.id = pAl.id ∧ p'.name = pAl.name ∧ p'.birth_year = pAl.birth_year ∧
      p'.death_year = pAl.death_year ∧ p'.gender = pAl.gender ∧
      p'.birth_date = pAl.birth_date ∧ p'.death_date = pAl.death_date ∧
      p'.birth_city = pAl.birth_city :=
  C6_remove_scrub tAl 1 pAl rfl (by decide)

/-- **C8** — counterexample.  The claim states `validate_death_year(d, b)`
raises iff both are present and `d < b`, with `None` in either position
short-circuiting to a pass.  At `d = 100`, `b = None` the claim demands a
pass, but the code first runs `validate_year` on `d` and raises the
year-range error even though `b` is absent. -/
theorem C8_death_year_cex :
    validate_death_year (some 100) none =
      Except.error ⟨"death_year", "Year must be between 1500 and 2100"⟩ := by
  rfl

/-- **C8** — amended claim: `validate_death_year(d, b)` raises a
`ValidationError` iff `d` is present and either `d` is outside
[1500, 2100] or `b` is present with `d < b`; otherwise it passes,
returning `d` unchanged (`None` when `d` is `None`). -/
theorem C8_death_year_amended (d b : Option Int) :
    ((∃ e, validate_death_year d b = Except.error e) ↔
      (∃ dv, d = some dv ∧ (dv < 1500 ∨ 2100 < dv ∨ ∃ bv, b = some bv ∧ dv < bv))) ∧
    ((validate_death_year d b = Except.ok d) ↔
      ¬ ∃ dv, d = some dv ∧ (dv < 1500 ∨ 2100 < dv ∨ ∃ bv, b = some bv ∧ dv < bv)) := by
  cases d with
  | none => simp [validate_death_year]
  | some dv =>
    rcases Classical.em (dv < 1500 ∨ dv > 2100) with hr | hr
    · have he : validate_death_year (some dv) b =
          Except.error ⟨"death_year", "Year must be between 1500 and 2100"⟩ := by
        cases b <;> simp [validate_death_year, validate_year, hr]
      rw [he]
      constructor
      · constructor
        · intro _; exact ⟨dv, rfl, by omega⟩
        · intro _; exact ⟨_, rfl⟩
      · constructor
        · intro h; exact (Except.noConfusion h)
        · intro h; exact absurd ⟨dv, rfl, by omega⟩ h
    · cases b with
      | none =>
        have he : validate_death_year (some dv) none = Except.ok (some dv) := by
          simp [validate_death_year, validate_year, hr]
        rw [he]
        have hnb : ¬ ∃ dv', (some dv : Option Int) = some dv' ∧
            (dv' < 1500 ∨ 2100 < dv' ∨ ∃ bv, (none : Option Int) = some bv ∧ dv' < bv) := by
          rintro ⟨dv', h1, h2⟩
          cases h1
          rcases h2 with h | h | ⟨bv, hbv, _⟩
          · omega
          · omega
          · exact Option.noConfusion hbv
        constructor
        · constructor
          · rintro ⟨e, hee⟩; exact (Except.noConfusion hee)
          · intro hb; exact absurd hb hnb
        · constructor
          · intro _; exact hnb
          · intro _; rfl
      | some bv =>
        rcases Classical.em (dv < bv) with hlt | hlt
        · have he : validate_death_year (some dv) (some bv) =
              Except.error ⟨"death_year", "Death year cannot be before birth year"⟩ := by
            simp [validate_death_year, validate_year, hr, hlt]
          rw [he]
          constructor
          · constructor
            · intro _; exact ⟨dv, rfl, Or.inr (Or.inr ⟨bv, rfl, hlt⟩)⟩
            · intro _; exact ⟨_, rfl⟩
          · constructor
            · intro h; exact (Except.noConfusion h)
            · intro h; exact absurd ⟨dv, rfl, Or.inr (Or.inr ⟨bv, rfl, hlt⟩)⟩ h
        · have he : validate_death_year (some dv) (some bv) = Except.ok (some dv) := by
            simp [validate_death_year, validate_year, hr, hlt]
          rw [he]
          have hnb : ¬ ∃ dv', (some dv : Option Int) = some dv' ∧
              (dv' < 1500 ∨ 2100 < dv' ∨ ∃ bv', (some bv : Option Int) = some bv' ∧ dv' < bv') := by
            rintro ⟨dv', h1, h2⟩
            cases h1
            rcases h2 with h | h | ⟨bv', hbv', h⟩
            · omega
            · omega
            · cases hbv'; omega
          constructor
          · constructor
            · rintro ⟨e, hee⟩; exact (Except.noConfusion hee)
            · intro hb; exact absurd hb hnb
          · constructor
            · intro _; exact hnb
            · intro _; rfl

/-! ## Reachable states and the edge invariant (C9) -/

/-- Post-state of `add_person` (unchanged when the constructor raises,
since the raise happens before anything is stored). -/
def addPersonState (t : FamilyTree) (name : String) (birth_year death_year : Option Int)
    (gender : Option String) (birth_date death_date : DateField)
    (birth_city : Option String) : FamilyTree :=
  match addPerson t name birth_year death_year gender birth_date death_date birth_city with
  | .ok (t', _) => t'
  | .error _ => t

/-- Post-state of `update_person` (partial mutation included). -/
def updatePersonState (t : FamilyTree) (person_id : Int) (name : Option String)
    (birth_year death_year : Option Int) (gender : Option String)
    (birth_date death_date : DateField) (birth_city : Option String) : FamilyTree :=
  (updatePerson t person_id name birth_year death_year gender birth_date death_date birth_city).2

/-- Post-state of `add_parent_child` (unchanged on its domain errors,
which are raised before any edge mutation). -/
def addParentChildState (t : FamilyTree) (parent_id child_id : Int) : FamilyTree :=
  match addParentChild t parent_id child_id with
  | .ok (t', _, _) => t'
  | .error _ => t

/-- Post-state of `add_spouse`. -/
def addSpouseState (t : FamilyTree) (person1_id person2_id : Int) : FamilyTree :=
  match addSpouse t person1_id person2_id with
  | .ok (t', _, _) => t'
  | .error _ => t

/-- Post-state of `remove_person`. -/
def removePersonState (t : FamilyTree) (person_id : Int) : FamilyTree :=
  match removePerson t person_id with
  | .ok (t', _) => t'
  | .error _ => t

/-- Post-state of `load`. -/
def loadState (t : FamilyTree) (doc : Option Document) : FamilyTree :=
  (load t doc).2

/-- States reachable from the empty tree via the public mutating
operations, `load` included. -/
inductive Reachable : FamilyTree → Prop where
  | empty : Reachable FamilyTree.empty
  | addPerson (t name birth_year death_year gender birth_date death_date birth_city) :
      Reachable t →
      Reachable (addPersonState t name birth_year death_year gender birth_date death_date
        birth_city)
  | updatePerson (t person_id name birth_year death_year gender birth_date death_date
      birth_city) :
      Reachable t →
      Reachable (updatePersonState t person_id name birth_year death_year gender birth_date
        death_date birth_city)
  | addParentChild (t parent_id child_id) :
      Reachable t → Reachable (addParentChildState t parent_id child_id)
  | addSpouse (t person1_id person2_id) :
      Reachable t → Reachable (addSpouseState t person1_id person2_id)
  | removePerson (t person_id) :
      Reachable t → Reachable (removePersonState t person_id)
  | load (t doc) : Reachable t → Reachable (loadState t doc)

/-- States reachable via the in-memory mutating operations only
(persistence excluded). -/
inductive ReachableMem : FamilyTree → Prop where
  | empty : ReachableMem FamilyTree.empty
  | addPerson (t name birth_year death_year gender birth_date death_date birth_city) :
      ReachableMem t →
      ReachableMem (addPersonState t name birth_year death_year gender birth_date death_date
        birth_city)
  | updatePerson (t person_id name birth_year death_year gender birth_date death_date
      birth_city) :
      ReachableMem t →
      ReachableMem (updatePersonState t person_id name birth_year death_year gender birth_date
        death_date birth_city)
  | addParentChild (t parent_id child_id) :
      ReachableMem t → ReachableMem (addParentChildState t parent_id child_id)
  | addSpouse (t person1_id person2_id) :
      ReachableMem t → ReachableMem (addSpouseState t person1_id person2_id)
  | removePerson (t person_id) :
      ReachableMem t → ReachableMem (removePersonState t person_id)

/-- Bidirectional mirroring of parent/child edges and symmetry of spouse
edges, over stored pairs. -/
def Mirror (t : FamilyTree) : Prop :=
  ∀ p ∈ t.people, ∀ c ∈ t.people,
    (p.id ∈ c.parent_ids ↔ c.id ∈ p.child_ids) ∧
    (p.id ∈ c.spouse_ids ↔ c.id ∈ p.spouse_ids)

instance (t : FamilyTree) : Decidable (Mirror t) := by
  unfold Mirror
  infer_instance

/-- No edge list contains a duplicate id. -/
def NodupEdges (t : FamilyTree) : Prop :=
  ∀ p ∈ t.people, p.parent_ids.Nodup ∧ p.spouse_ids.Nodup ∧ p.child_ids.Nodup

instance (t : FamilyTree) : Decidable (NodupEdges t) := by
  unfold NodupEdges
  infer_instance

/-- The strengthened inductive invariant of the in-memory operations. -/
structure Inv (t : FamilyTree) : Prop where
  ids_nodup : (t.people.map Person.id).Nodup
  id_lt : ∀ p ∈ t.people, p.id < t.next_id
  edges_nodup : NodupEdges t
  edges_closed : ∀ p ∈ t.people,
    (∀ e ∈ p.parent_ids, e ∈ idsOf t) ∧ (∀ e ∈ p.spouse_ids, e ∈ idsOf t) ∧
    (∀ e ∈ p.child_ids, e ∈ idsOf t)
  mirror : Mirror t

/-- Equality of the identity and all three edge lists. -/
def SameIdEdges (p q : Person) : Prop :=
  q.id = p.id ∧ q.parent_ids = p.parent_ids ∧ q.spouse_ids = p.spouse_ids ∧
  q.child_ids = p.child_ids

theorem Person.make_ok_shape {i : Int} {n : String} {byr dyr : Option Int}
    {g : Option String} {bd dd : DateField} {c : Option String} {p : Person}
    (h : Person.make i n byr dyr g bd dd c = .ok p) :
    p.id = i ∧ p.parent_ids = [] ∧ p.spouse_ids = [] ∧ p.child_ids = [] := by
  unfold Person.make at h
  split at h
  · exact Except.noConfusion h
  · split at h
    · exact Except.noConfusion h
    · split at h
      · exact Except.noConfusion h
      · split at h
        · exact Except.noConfusion h
        · split at h
          · exact Except.noConfusion h
          · split at h
            · exact Except.noConfusion h
            · split at h
              · exact Except.noConfusion h
              · obtain rfl := Except.ok.inj h
                exact ⟨rfl, rfl, rfl, rfl⟩

theorem people_inj {t : FamilyTree} (h : (t.people.map Person.id).Nodup) {a b : Person}
    (ha : a ∈ t.people) (hb : b ∈ t.people) (hid : a.id = b.id) : a = b :=
  List.inj_on_of_nodup_map h ha hb hid

theorem SameIdEdges_trans {a b c : Person} (h1 : SameIdEdges a b) (h2 : SameIdEdges b c) :
    SameIdEdges a c := by
  obtain ⟨i1, p1, s1, c1⟩ := h1
  obtain ⟨i2, p2, s2, c2⟩ := h2
  exact ⟨i2.trans i1, p2.trans p1, s2.trans s1, c2.trans c1⟩

theorem updName_same {a : Option String} {p q : Person} (h : updName a p = .ok q) :
    SameIdEdges p q := by
  rw [updName_frame h]
  exact ⟨rfl, rfl, rfl, rfl⟩

theorem updBirthYear_same {a : Option Int} {p q : Person} (h : updBirthYear a p = .ok q) :
    SameIdEdges p q := by
  rw [updBirthYear_frame h]
  exact ⟨rfl, rfl, rfl, rfl⟩

theorem updBirthDate_same {a : DateField} {p q : Person} (h : updBirthDate a p = .ok q) :
    SameIdEdges p q := by
  rw [updBirthDate_frame h]
  exact ⟨rfl, rfl, rfl, rfl⟩

theorem updDeathYear_same {a : Option Int} {p q : Person} (h : updDeathYear a p = .ok q) :
    SameIdEdges p q := by
  rw [updDeathYear_frame h]
  exact ⟨rfl, rfl, rfl, rfl⟩

theorem updDeathDate_same {a : DateField} {p q : Person} (h : updDeathDate a p = .ok q) :
    SameIdEdges p q := by
  rw [updDeathDate_frame h]
  exact ⟨rfl, rfl, rfl, rfl⟩

theorem updGender_same {a : Option String} {p q : Person} (h : updGender a p = .ok q) :
    SameIdEdges p q := by
  rw [updGender_frame h]
  exact ⟨rfl, rfl, rfl, rfl⟩

theorem updCity_same {a : Option String} {p q : Person} (h : updCity a p = .ok q) :
    SameIdEdges p q := by
  rw [updCity_frame h]
  exact ⟨rfl, rfl, rfl, rfl⟩

theorem fieldStep_pres {p0 : Person} {r : Except (ValidationError × Person) Person}
    {f : Person → Except ValidationError Person}
    (hok : ∀ q, r = .ok q → SameIdEdges p0 q)
    (herr : ∀ e q, r = .error (e, q) → SameIdEdges p0 q)
    (hf : ∀ p q, f p = .ok q → SameIdEdges p q) :
    (∀ q, fieldStep r f = .ok q → SameIdEdges p0 q) ∧
    (∀ e q, fieldStep r f = .error (e, q) → SameIdEdges p0 q) := by
  constructor
  · intro q h
    obtain ⟨p1, hre, hfe⟩ := fieldStep_ok_inv h
    exact SameIdEdges_trans (hok p1 hre) (hf p1 q hfe)
  · intro e q h
    rcases fieldStep_err_inv h with h1 | ⟨hre, _⟩
    · exact herr e q h1
    · exact hok q hre

theorem updateFields_pres (p0 : Person) (nameA : Option String) (byA dyA : Option Int)
    (gA : Option String) (bdA ddA : DateField) (cityA : Option String) :
    (∀ q, updateFields p0 nameA byA dyA gA bdA ddA cityA = .ok q → SameIdEdges p0 q) ∧
    (∀ e q, updateFields p0 nameA byA dyA gA bdA ddA cityA = .error (e, q) →
      SameIdEdges p0 q) := by
  have s0ok : ∀ q, (Except.ok p0 : Except (ValidationError × Person) Person) = .ok q →
      SameIdEdges p0 q := by
    intro q h
    obtain rfl := Except.ok.inj h
    exact ⟨rfl, rfl, rfl, rfl⟩
  have s0err : ∀ e q, (Except.ok p0 : Except (ValidationError × Person) Person) =
      .error (e, q) → SameIdEdges p0 q := fun e q h => Except.noConfusion h
  have s1 := fieldStep_pres s0ok s0err (fun p q h => updName_same (a := nameA) h)
  have s2 := fieldStep_pres s1.1 s1.2 (fun p q h => updBirthYear_same (a := byA) h)
  have s3 := fieldStep_pres s2.1 s2.2 (fun p q h => updBirthDate_same (a := bdA) h)
  have s4 := fieldStep_pres s3.1 s3.2 (fun p q h => updDeathYear_same (a := dyA) h)
  have s5 := fieldStep_pres s4.1 s4.2 (fun p q h => updDeathDate_same (a := ddA) h)
  have s6 := fieldStep_pres s5.1 s5.2 (fun p q h => updGender_same (a := gA) h)
  have s7 := fieldStep_pres s6.1 s6.2 (fun p q h => updCity_same (a := cityA) h)
  exact s7

theorem inv_empty : Inv FamilyTree.empty := by
  refine ⟨?_, ?_, ?_, ?_, ?_⟩ <;> simp [FamilyTree.empty, Mirror, NodupEdges, idsOf]

theorem inv_setPerson {t : FamilyTree} {pid : Int} {p0 q : Person} (h : Inv t)
    (hg : getPerson t pid = some p0) (hs : SameIdEdges p0 q) :
    Inv { t with people := setPerson t.people pid q } := by
  obtain ⟨hp0mem, hp0id⟩ := getPerson_mem hg
  have hkey : ∀ r ∈ t.people, SameIdEdges r (if r.id = pid then q else r) := by
    intro r hr
    by_cases hrid : r.id = pid
    · rw [if_pos hrid]
      have hreq : r = p0 := people_inj h.ids_nodup hr hp0mem (by rw [hrid, hp0id])
      subst hreq
      exact hs
    · rw [if_neg hrid]
      exact ⟨rfl, rfl, rfl, rfl⟩
  have hids : List.map Person.id (setPerson t.people pid q) = List.map Person.id t.people := by
    unfold setPerson
    rw [List.map_map]
    apply List.map_congr_left
    intro r hr
    exact (hkey r hr).1
  refine ⟨?_, ?_, ?_, ?_, ?_⟩
  · show (List.map Person.id (setPerson t.people pid q)).Nodup
    rw [hids]
    exact h.ids_nodup
  · intro r' hr'
    obtain ⟨r, hr, rfl⟩ := List.mem_map.mp hr'
    rw [(hkey r hr).1]
    exact h.id_lt r hr
  · intro r' hr'
    obtain ⟨r, hr, rfl⟩ := List.mem_map.mp hr'
    obtain ⟨e1, e2, e3⟩ := h.edges_nodup r hr
    obtain ⟨_, k2, k3, k4⟩ := hkey r hr
    exact ⟨by rw [k2]; exact e1, by rw [k3]; exact e2, by rw [k4]; exact e3⟩
  · intro r' hr'
    obtain ⟨r, hr, rfl⟩ := List.mem_map.mp hr'
    obtain ⟨c1, c2, c3⟩ := h.edges_closed r hr
    obtain ⟨_, k2, k3, k4⟩ := hkey r hr
    have hids2 : idsOf { t with people := setPerson t.people pid q } = idsOf t := hids
    refine ⟨?_, ?_, ?_⟩
    · intro e he; rw [k2] at he; rw [hids2]; exact c1 e he
    · intro e he; rw [k3] at he; rw [hids2]; exact c2 e he
    · intro e he; rw [k4] at he; rw [hids2]; exact c3 e he
  · intro x' hx' y' hy'
    obtain ⟨x, hx, rfl⟩ := List.mem_map.mp hx'
    obtain ⟨y, hy, rfl⟩ := List.mem_map.mp hy'
    obtain ⟨kx1, kx2, kx3, kx4⟩ := hkey x hx
    obtain ⟨ky1, ky2, ky3, ky4⟩ := hkey y hy
    refine ⟨?_, ?_⟩
    · rw [kx1, ky1, ky2, kx4]
      exact (h.mirror x hx y hy).1
    · rw [kx1, ky1, ky3, kx3]
      exact (h.mirror x hx y hy).2

theorem inv_updatePerson {t : FamilyTree} (pid : Int) (nameA : Option String)
    (byA dyA : Option Int) (gA : Option String) (bdA ddA : DateField)
    (cityA : Option String) (h : Inv t) :
    Inv (updatePersonState t pid nameA byA dyA gA bdA ddA cityA) := by
  unfold updatePersonState updatePerson
  cases hg : getPerson t pid with
  | none => exact h
  | some p0 =>
    show Inv ((match updateFields p0 nameA byA dyA gA bdA ddA cityA with
      | Except.error (e, q) =>
        ((Except.error (UpdateErr.invalid e) : Except UpdateErr Person),
          { t with people := setPerson t.people pid q })
      | Except.ok q => (Except.ok q, { t with people := setPerson t.people pid q })).2)
    cases hF : updateFields p0 nameA byA dyA gA bdA ddA cityA with
    | ok q =>
      exact inv_setPerson h hg ((updateFields_pres p0 nameA byA dyA gA bdA ddA cityA).1 q hF)
    | error eq2 =>
      obtain ⟨e, q⟩ := eq2
      exact inv_setPerson h hg ((updateFields_pres p0 nameA byA dyA gA bdA ddA cityA).2 e q hF)

theorem inv_addPerson {t : FamilyTree} (name : String) (byr dyr : Option Int)
    (g : Option String) (bd dd : DateField) (city : Option String) (h : Inv t) :
    Inv (addPersonState t name byr dyr g bd dd city) := by
  unfold addPersonState addPerson
  cases hm : Person.make t.next_id name byr dyr g bd dd city with
  | error e => exact h
  | ok p =>
    obtain ⟨hid, hpar, hsp, hch⟩ := Person.make_ok_shape hm
    show Inv ⟨dictInsert t.people p, t.next_id + 1⟩
    have hfresh : ∀ q ∈ t.people, q.id ≠ p.id := by
      intro q hq
      rw [hid]
      exact ne_of_lt (h.id_lt q hq)
    have hnid : ∀ e, e ∈ idsOf t → e ≠ t.next_id := by
      intro e he
      obtain ⟨q, hq, rfl⟩ := List.mem_map.mp he
      exact ne_of_lt (h.id_lt q hq)
    rw [dictInsert_fresh hfresh]
    refine ⟨?_, ?_, ?_, ?_, ?_⟩
    · show (List.map Person.id (t.people ++ [p])).Nodup
      rw [List.map_append, List.nodup_append]
      refine ⟨h.ids_nodup, by simp, ?_⟩
      intro x hx hy
      simp only [List.map_cons, List.map_nil, List.mem_singleton] at hy
      have hlt := hnid x hx
      rw [hy, hid] at hlt
      exact hlt rfl
    · intro q hq
      rcases List.mem_append.mp hq with hq | hq
      · have := h.id_lt q hq
        show q.id < t.next_id + 1
        omega
      · simp only [List.mem_singleton] at hq
        subst hq
        show q.id < t.next_id + 1
        rw [hid]
        omega
    · intro q hq
      rcases List.mem_append.mp hq with hq | hq
      · exact h.edges_nodup q hq
      · simp only [List.mem_singleton] at hq
        subst hq
        rw [hpar, hsp, hch]
        exact ⟨List.nodup_nil, List.nodup_nil, List.nodup_nil⟩
    · intro q hq
      have hsup : ∀ e, e ∈ idsOf t → e ∈ idsOf ⟨t.people ++ [p], t.next_id + 1⟩ := by
        intro e he
        obtain ⟨r, hr, rfl⟩ := List.mem_map.mp he
        exact List.mem_map_of_mem Person.id (List.mem_append_left _ hr)
      rcases List.mem_append.mp hq with hq | hq
      · obtain ⟨c1, c2, c3⟩ := h.edges_closed q hq
        exact ⟨fun e he => hsup e (c1 e he), fun e he => hsup e (c2 e he),
               fun e he => hsup e (c3 e he)⟩
      · simp only [List.mem_singleton] at hq
        subst hq
        rw [hpar, hsp, hch]
        exact ⟨by simp, by simp, by simp⟩
    · intro x hx y hy
      have hnew : ∀ q ∈ t.people, p.id ∉ q.parent_ids ∧ p.id ∉ q.spouse_ids ∧
          p.id ∉ q.child_ids := by
        intro q hq
        obtain ⟨c1, c2, c3⟩ := h.edges_closed q hq
        refine ⟨fun hm2 => ?_, fun hm2 => ?_, fun hm2 => ?_⟩
        · exact hnid p.id (c1 _ hm2) hid
        · exact hnid p.id (c2 _ hm2) hid
        · exact hnid p.id (c3 _ hm2) hid
      rcases List.mem_append.mp hx with hx1 | hx1 <;>
        rcases List.mem_append.mp hy with hy1 | hy1
      · exact h.mirror x hx1 y hy1
      · simp only [List.mem_singleton] at hy1
        subst hy1
        constructor
        · simp only [hpar, List.not_mem_nil, false_iff]
          exact (hnew x hx1).2.2
        · simp only [hsp, List.not_mem_nil, false_iff]
          exact (hnew x hx1).2.1
      · simp only [List.mem_singleton] at hx1
        subst hx1
        constructor
        · simp only [hch, List.not_mem_nil, iff_false]
          exact (hnew y hy1).1
        · simp only [hsp, List.not_mem_nil, iff_false]
          exact (hnew y hy1).2.1
      · simp only [List.mem_singleton] at hx1 hy1
        subst hx1
        subst hy1
        simp [hpar, hsp, hch]

theorem inv_removePerson {t : FamilyTree} (pid : Int) (h : Inv t) :
    Inv (removePersonState t pid) := by
  unfold removePersonState removePerson
  cases hg : getPerson t pid with
  | none => exact h
  | some p =>
    show Inv ⟨(t.people.map (scrub pid)).filter (fun q => q.id != pid), t.next_id⟩
    have herase_mem : ∀ (l : List Int), l.Nodup → ∀ e, e ∈ l.erase pid ↔ (e ∈ l ∧ e ≠ pid) := by
      intro l hl e
      constructor
      · intro he
        refine ⟨List.mem_of_mem_erase he, ?_⟩
        rintro rfl
        have hc : l.count e ≤ 1 := List.nodup_iff_count_le_one.mp hl e
        have h0 : (l.erase e).count e = 0 := by
          rw [List.count_erase_self]
          omega
        rw [List.count_eq_zero] at h0
        exact h0 he
      · rintro ⟨hmem, hne⟩
        exact (List.mem_erase_of_ne hne).mpr hmem
    have hmm : ∀ q', q' ∈ (t.people.map (scrub pid)).filter (fun q => q.id != pid) →
        ∃ q, q ∈ t.people ∧ q' = scrub pid q ∧ q.id ≠ pid := by
      intro q' hq'
      rw [List.mem_filter] at hq'
      obtain ⟨q, hq, rfl⟩ := List.mem_map.mp hq'.1
      refine ⟨q, hq, rfl, ?_⟩
      simpa [scrub] using hq'.2
    have hidmem : ∀ e, e ∈ idsOf t → e ≠ pid →
        e ∈ idsOf ⟨(t.people.map (scrub pid)).filter (fun q => q.id != pid), t.next_id⟩ := by
      intro e he hne
      obtain ⟨r, hr, rfl⟩ := List.mem_map.mp he
      refine List.mem_map.mpr ⟨scrub pid r, ?_, rfl⟩
      rw [List.mem_filter]
      refine ⟨List.mem_map_of_mem _ hr, ?_⟩
      simpa [scrub] using hne
    refine ⟨?_, ?_, ?_, ?_, ?_⟩
    · have hmapeq : List.map Person.id (t.people.map (scrub pid)) =
          List.map Person.id t.people := by
        rw [List.map_map]
        apply List.map_congr_left
        intro r _
        rfl
      have hsub : List.Sublist ((t.people.map (scrub pid)).filter (fun q => q.id != pid))
          (t.people.map (scrub pid)) := List.filter_sublist _
      exact (hmapeq ▸ h.ids_nodup : (List.map Person.id (t.people.map (scrub pid))).Nodup).sublist
        (hsub.map Person.id)
    · intro q' hq'
      obtain ⟨q, hq, rfl, _⟩ := hmm q' hq'
      exact h.id_lt q hq
    · intro q' hq'
      obtain ⟨q, hq, rfl, _⟩ := hmm q' hq'
      obtain ⟨e1, e2, e3⟩ := h.edges_nodup q hq
      exact ⟨e1.erase pid, e2.erase pid, e3.erase pid⟩
    · intro q' hq'
      obtain ⟨q, hq, rfl, _⟩ := hmm q' hq'
      obtain ⟨c1, c2, c3⟩ := h.edges_closed q hq
      obtain ⟨e1, e2, e3⟩ := h.edges_nodup q hq
      refine ⟨?_, ?_, ?_⟩
      · intro e he
        obtain ⟨hmem2, hne2⟩ := (herase_mem _ e1 e).mp he
        exact hidmem e (c1 e hmem2) hne2
      · intro e he
        obtain ⟨hmem2, hne2⟩ := (herase_mem _ e2 e).mp he
        exact hidmem e (c2 e hmem2) hne2
      · intro e he
        obtain ⟨hmem2, hne2⟩ := (herase_mem _ e3 e).mp he
        exact hidmem e (c3 e hmem2) hne2
    · intro x' hx' y' hy'
      obtain ⟨x, hx, rfl, hxne⟩ := hmm x' hx'
      obtain ⟨y, hy, rfl, hyne⟩ := hmm y' hy'
      have hxid : (scrub pid x).id = x.id := rfl
      have hyid : (scrub pid y).id = y.id := rfl
      refine ⟨?_, ?_⟩
      · rw [hxid, hyid]
        show x.id ∈ y.parent_ids.erase pid ↔ y.id ∈ x.child_ids.erase pid
        rw [List.mem_erase_of_ne hxne, List.mem_erase_of_ne hyne]
        exact (h.mirror x hx y hy).1
      · rw [hxid, hyid]
        show x.id ∈ y.spouse_ids.erase pid ↔ y.id ∈ x.spouse_ids.erase pid
        rw [List.mem_erase_of_ne hxne, List.mem_erase_of_ne hyne]
        exact (h.mirror x hx y hy).2

theorem append_singleton_nodup {l : List Int} {a : Int} (hl : l.Nodup) (ha : a ∉ l) :
    (l ++ [a]).Nodup := by
  rw [List.nodup_append]
  refine ⟨hl, by simp, ?_⟩
  intro x hx hxa
  simp only [List.mem_singleton] at hxa
  subst hxa
  exact ha hx

theorem inv_link_pc {t : FamilyTree} {pid cid : Int} {parent child : Person}
    (h : Inv t) (hne : ¬ pid = cid)
    (hgp : getPerson t pid = some parent) (hgc : getPerson t cid = some child)
    (parent' child' : Person)
    (hpdef : parent' = if cid ∈ parent.child_ids then parent
      else { parent with child_ids := parent.child_ids ++ [cid] })
    (hcdef : child' = if pid ∈ child.parent_ids then child
      else { child with parent_ids := child.parent_ids ++ [pid] }) :
    Inv { t with people := setPerson (setPerson t.people pid parent') cid child' } := by
  obtain ⟨hpmem, hpid⟩ := getPerson_mem hgp
  obtain ⟨hcmem, hcid⟩ := getPerson_mem hgc
  have hpid' : parent'.id = pid := by
    rw [hpdef]
    by_cases hc : cid ∈ parent.child_ids
    · rw [if_pos hc]; exact hpid
    · rw [if_neg hc]; exact hpid
  have hcid' : child'.id = cid := by
    rw [hcdef]
    by_cases hc : pid ∈ child.parent_ids
    · rw [if_pos hc]; exact hcid
    · rw [if_neg hc]; exact hcid
  have hp_par : parent'.parent_ids = parent.parent_ids := by
    rw [hpdef]
    by_cases hc : cid ∈ parent.child_ids
    · rw [if_pos hc]
    · rw [if_neg hc]
  have hp_sp : parent'.spouse_ids = parent.spouse_ids := by
    rw [hpdef]
    by_cases hc : cid ∈ parent.child_ids
    · rw [if_pos hc]
    · rw [if_neg hc]
  have hc_ch : child'.child_ids = child.child_ids := by
    rw [hcdef]
    by_cases hc : pid ∈ child.parent_ids
    · rw [if_pos hc]
    · rw [if_neg hc]
  have hc_sp : child'.spouse_ids = child.spouse_ids := by
    rw [hcdef]
    by_cases hc : pid ∈ child.parent_ids
    · rw [if_pos hc]
    · rw [if_neg hc]
  have hp_ch_mem : ∀ a, a ∈ parent'.child_ids ↔ (a ∈ parent.child_ids ∨ a = cid) := by
    intro a
    rw [hpdef]
    by_cases hc : cid ∈ parent.child_ids
    · rw [if_pos hc]
      constructor
      · exact Or.inl
      · rintro (ha | rfl)
        · exact ha
        · exact hc
    · rw [if_neg hc]
      show a ∈ parent.child_ids ++ [cid] ↔ _
      simp [List.mem_append]
  have hc_par_mem : ∀ a, a ∈ child'.parent_ids ↔ (a ∈ child.parent_ids ∨ a = pid) := by
    intro a
    rw [hcdef]
    by_cases hc : pid ∈ child.parent_ids
    · rw [if_pos hc]
      constructor
      · exact Or.inl
      · rintro (ha | rfl)
        · exact ha
        · exact hc
    · rw [if_neg hc]
      show a ∈ child.parent_ids ++ [pid] ↔ _
      simp [List.mem_append]
  have hp_ch_nodup : parent.child_ids.Nodup → parent'.child_ids.Nodup := by
    intro hn
    rw [hpdef]
    by_cases hc : cid ∈ parent.child_ids
    · rw [if_pos hc]; exact hn
    · rw [if_neg hc]
      exact append_singleton_nodup hn hc
  have hc_par_nodup : child.parent_ids.Nodup → child'.parent_ids.Nodup := by
    intro hn
    rw [hcdef]
    by_cases hc : pid ∈ child.parent_ids
    · rw [if_pos hc]; exact hn
    · rw [if_neg hc]
      exact append_singleton_nodup hn hc
  -- pointwise characterization of the double replacement
  have hImg : ∀ r, r ∈ t.people →
      let r' := (fun q => if q.id = cid then child' else q)
        ((fun q => if q.id = pid then parent' else q) r)
      r'.id = r.id ∧ r'.spouse_ids = r.spouse_ids ∧
      (∀ a, a ∈ r'.parent_ids ↔ (a ∈ r.parent_ids ∨ (r.id = cid ∧ a = pid))) ∧
      (∀ a, a ∈ r'.child_ids ↔ (a ∈ r.child_ids ∨ (r.id = pid ∧ a = cid))) ∧
      (r.parent_ids.Nodup → r'.parent_ids.Nodup) ∧
      (r.spouse_ids.Nodup → r'.spouse_ids.Nodup) ∧
      (r.child_ids.Nodup → r'.child_ids.Nodup) := by
    intro r hr
    by_cases hrp : r.id = pid
    · have hreq : r = parent := people_inj h.ids_nodup hr hpmem (by rw [hrp, hpid])
      subst hreq
      have hrc : r.id ≠ cid := by rw [hrp]; exact hne
      simp only [if_pos hrp, if_neg (show parent'.id ≠ cid by rw [hpid']; exact hne)]
      refine ⟨by rw [hpid', hrp], hp_sp, ?_, ?_, ?_, ?_, ?_⟩
      · intro a
        rw [hp_par]
        constructor
        · exact Or.inl
        · rintro (ha | ⟨hbad, _⟩)
          · exact ha
          · exact absurd hbad hrc
      · intro a
        rw [hp_ch_mem a]
        constructor
        · rintro (ha | rfl)
          · exact Or.inl ha
          · exact Or.inr ⟨hrp, rfl⟩
        · rintro (ha | ⟨_, rfl⟩)
          · exact Or.inl ha
          · exact Or.inr rfl
      · intro hn; rw [hp_par]; exact hn
      · intro hn; rw [hp_sp]; exact hn
      · exact hp_ch_nodup
    · by_cases hrc : r.id = cid
      · have hreq : r = child := people_inj h.ids_nodup hr hcmem (by rw [hrc, hcid])
        subst hreq
        simp only [if_neg hrp, if_pos hrc]
        refine ⟨by rw [hcid', hrc], hc_sp, ?_, ?_, ?_, ?_, ?_⟩
        · intro a
          rw [hc_par_mem a]
          constructor
          · rintro (ha | rfl)
            · exact Or.inl ha
            · exact Or.inr ⟨hrc, rfl⟩
          · rintro (ha | ⟨_, rfl⟩)
            · exact Or.inl ha
            · exact Or.inr rfl
        · intro a
          rw [hc_ch]
          constructor
          · exact Or.inl
          · rintro (ha | ⟨hbad, _⟩)
            · exact ha
            · exact absurd hbad hrp
        · exact hc_par_nodup
        · intro hn; rw [hc_sp]; exact hn
        · intro hn; rw [hc_ch]; exact hn
      · simp only [if_neg hrp, if_neg hrc]
        refine ⟨trivial, trivial, ?_, ?_, fun hn => hn, fun hn => hn, fun hn => hn⟩
        · intro a
          constructor
          · exact Or.inl
          · rintro (ha | ⟨hbad, _⟩)
            · exact ha
            · exact absurd hbad hrc
        · intro a
          constructor
          · exact Or.inl
          · rintro (ha | ⟨hbad, _⟩)
            · exact ha
            · exact absurd hbad hrp
  have hmm2 : ∀ r'', r'' ∈ setPerson (setPerson t.people pid parent') cid child' →
      ∃ r, r ∈ t.people ∧ r'' = (fun q => if q.id = cid then child' else q)
        ((fun q => if q.id = pid then parent' else q) r) := by
    intro r'' hr''
    obtain ⟨r', hr', rfl⟩ := List.mem_map.mp hr''
    obtain ⟨r, hr, rfl⟩ := List.mem_map.mp hr'
    exact ⟨r, hr, rfl⟩
  have hids : List.map Person.id (setPerson (setPerson t.people pid parent') cid child') =
      List.map Person.id t.people := by
    unfold setPerson
    rw [List.map_map, List.map_map]
    apply List.map_congr_left
    intro r hr
    exact (hImg r hr).1
  refine ⟨?_, ?_, ?_, ?_, ?_⟩
  · show (List.map Person.id (setPerson (setPerson t.people pid parent') cid child')).Nodup
    rw [hids]
    exact h.ids_nodup
  · intro r'' hr''
    obtain ⟨r, hr, rfl⟩ := hmm2 r'' hr''
    rw [(hImg r hr).1]
    exact h.id_lt r hr
  · intro r'' hr''
    obtain ⟨r, hr, rfl⟩ := hmm2 r'' hr''
    obtain ⟨e1, e2, e3⟩ := h.edges_nodup r hr
    obtain ⟨_, _, _, _, n1, n2, n3⟩ := hImg r hr
    exact ⟨n1 e1, n2 e2, n3 e3⟩
  · intro r'' hr''
    obtain ⟨r, hr, rfl⟩ := hmm2 r'' hr''
    obtain ⟨c1, c2, c3⟩ := h.edges_closed r hr
    obtain ⟨_, hsp2, hparm, hchm, _, _, _⟩ := hImg r hr
    have hids2 : ∀ e, e ∈ idsOf t →
        e ∈ idsOf { t with people := setPerson (setPerson t.people pid parent') cid child' } := by
      intro e he
      show e ∈ List.map Person.id (setPerson (setPerson t.people pid parent') cid child')
      rw [hids]
      exact he
    refine ⟨?_, ?_, ?_⟩
    · intro e he
      rcases (hparm e).mp he with he1 | ⟨_, rfl⟩
      · exact hids2 e (c1 e he1)
      · exact hids2 _ (hpid ▸ List.mem_map_of_mem Person.id hpmem)
    · intro e he
      rw [hsp2] at he
      exact hids2 e (c2 e he)
    · intro e he
      rcases (hchm e).mp he with he1 | ⟨_, rfl⟩
      · exact hids2 e (c3 e he1)
      · exact hids2 _ (hcid ▸ List.mem_map_of_mem Person.id hcmem)
  · intro x'' hx'' y'' hy''
    obtain ⟨x, hx, rfl⟩ := hmm2 x'' hx''
    obtain ⟨y, hy, rfl⟩ := hmm2 y'' hy''
    obtain ⟨hxid, hxsp, hxparm, hxchm, _, _, _⟩ := hImg x hx
    obtain ⟨hyid, hysp, hyparm, hychm, _, _, _⟩ := hImg y hy
    constructor
    · rw [hxid, hyid]
      constructor
      · intro hm1
        rcases (hyparm x.id).mp hm1 with hm2 | ⟨h1, h2⟩
        · exact (hxchm y.id).mpr (Or.inl ((h.mirror x hx y hy).1.mp hm2))
        · exact (hxchm y.id).mpr (Or.inr ⟨h2, h1⟩)
      · intro hm1
        rcases (hxchm y.id).mp hm1 with hm2 | ⟨h1, h2⟩
        · exact (hyparm x.id).mpr (Or.inl ((h.mirror x hx y hy).1.mpr hm2))
        · exact (hyparm x.id).mpr (Or.inr ⟨h2, h1⟩)
    · rw [hxid, hyid, hxsp, hysp]
      exact (h.mirror x hx y hy).2

theorem inv_addParentChild {t : FamilyTree} (pid cid : Int) (h : Inv t) :
    Inv (addParentChildState t pid cid) := by
  unfold addParentChildState addParentChild
  by_cases hne : pid = cid
  · rw [if_pos hne]
    exact h
  · rw [if_neg hne]
    cases hgp : getPerson t pid with
    | none => exact h
    | some parent =>
      cases hgc : getPerson t cid with
      | none => exact h
      | some child =>
        exact inv_link_pc h hne hgp hgc _ _ rfl rfl

/-- Linking two spouses preserves the invariant. -/
theorem inv_link_sp {t : FamilyTree} {p1id p2id : Int} {p1 p2 : Person}
    (h : Inv t) (hne : ¬ p1id = p2id)
    (hg1 : getPerson t p1id = some p1) (hg2 : getPerson t p2id = some p2)
    (p1' p2' : Person)
    (h1def : p1' = if p2id ∈ p1.spouse_ids then p1
      else { p1 with spouse_ids := p1.spouse_ids ++ [p2id] })
    (h2def : p2' = if p1id ∈ p2.spouse_ids then p2
      else { p2 with spouse_ids := p2.spouse_ids ++ [p1id] }) :
    Inv { t with people := setPerson (setPerson t.people p1id p1') p2id p2' } := by
  obtain ⟨h1mem, h1id⟩ := getPerson_mem hg1
  obtain ⟨h2mem, h2id⟩ := getPerson_mem hg2
  have h1id' : p1'.id = p1id := by
    rw [h1def]
    by_cases hc : p2id ∈ p1.spouse_ids
    · rw [if_pos hc]; exact h1id
    · rw [if_neg hc]; exact h1id
  have h2id' : p2'.id = p2id := by
    rw [h2def]
    by_cases hc : p1id ∈ p2.spouse_ids
    · rw [if_pos hc]; exact h2id
    · rw [if_neg hc]; exact h2id
  have h1_par : p1'.parent_ids = p1.parent_ids := by
    rw [h1def]
    by_cases hc : p2id ∈ p1.spouse_ids
    · rw [if_pos hc]
    · rw [if_neg hc]
  have h1_ch : p1'.child_ids = p1.child_ids := by
    rw [h1def]
    by_cases hc : p2id ∈ p1.spouse_ids
    · rw [if_pos hc]
    · rw [if_neg hc]
  have h2_par : p2'.parent_ids = p2.parent_ids := by
    rw [h2def]
    by_cases hc : p1id ∈ p2.spouse_ids
    · rw [if_pos hc]
    · rw [if_neg hc]
  have h2_ch : p2'.child_ids = p2.child_ids := by
    rw [h2def]
    by_cases hc : p1id ∈ p2.spouse_ids
    · rw [if_pos hc]
    · rw [if_neg hc]
  have h1_sp_mem : ∀ a, a ∈ p1'.spouse_ids ↔ (a ∈ p1.spouse_ids ∨ a = p2id) := by
    intro a
    rw [h1def]
    by_cases hc : p2id ∈ p1.spouse_ids
    · rw [if_pos hc]
      constructor
      · exact Or.inl
      · rintro (ha | rfl)
        · exact ha
        · exact hc
    · rw [if_neg hc]
      show a ∈ p1.spouse_ids ++ [p2id] ↔ _
      simp [List.mem_append]
  have h2_sp_mem : ∀ a, a ∈ p2'.spouse_ids ↔ (a ∈ p2.spouse_ids ∨ a = p1id) := by
    intro a
    rw [h2def]
    by_cases hc : p1id ∈ p2.spouse_ids
    · rw [if_pos hc]
      constructor
      · exact Or.inl
      · rintro (ha | rfl)
        · exact ha
        · exact hc
    · rw [if_neg hc]
      show a ∈ p2.spouse_ids ++ [p1id] ↔ _
      simp [List.mem_append]
  have h1_sp_nodup : p1.spouse_ids.Nodup → p1'.spouse_ids.Nodup := by
    intro hn
    rw [h1def]
    by_cases hc : p2id ∈ p1.spouse_ids
    · rw [if_pos hc]; exact hn
    · rw [if_neg hc]
      exact append_singleton_nodup hn hc
  have h2_sp_nodup : p2.spouse_ids.Nodup → p2'.spouse_ids.Nodup := by
    intro hn
    rw [h2def]
    by_cases hc : p1id ∈ p2.spouse_ids
    · rw [if_pos hc]; exact hn
    · rw [if_neg hc]
      exact append_singleton_nodup hn hc
  have hImg : ∀ r, r ∈ t.people →
      let r' := (fun q => if q.id = p2id then p2' else q)
        ((fun q => if q.id = p1id then p1' else q) r)
      r'.id = r.id ∧ r'.parent_ids = r.parent_ids ∧ r'.child_ids = r.child_ids ∧
      (∀ a, a ∈ r'.spouse_ids ↔
        (a ∈ r.spouse_ids ∨ (r.id = p1id ∧ a = p2id) ∨ (r.id = p2id ∧ a = p1id))) ∧
      (r.parent_ids.Nodup → r'.parent_ids.Nodup) ∧
      (r.spouse_ids.Nodup → r'.spouse_ids.Nodup) ∧
      (r.child_ids.Nodup → r'.child_ids.Nodup) := by
    intro r hr
    by_cases hrp : r.id = p1id
    · have hreq : r = p1 := people_inj h.ids_nodup hr h1mem (by rw [hrp, h1id])
      subst hreq
      have hrc : r.id ≠ p2id := by rw [hrp]; exact hne
      simp only [if_pos hrp, if_neg (show p1'.id ≠ p2id by rw [h1id']; exact hne)]
      refine ⟨by rw [h1id', hrp], h1_par, h1_ch, ?_,
        fun hn => by rw [h1_par]; exact hn, h1_sp_nodup,
        fun hn => by rw [h1_ch]; exact hn⟩
      intro a
      rw [h1_sp_mem a]
      constructor
      · rintro (ha | rfl)
        · exact Or.inl ha
        · exact Or.inr (Or.inl ⟨hrp, rfl⟩)
      · rintro (ha | ⟨_, rfl⟩ | ⟨hbad, _⟩)
        · exact Or.inl ha
        · exact Or.inr rfl
        · exact absurd hbad hrc
    · by_cases hrc : r.id = p2id
      · have hreq : r = p2 := people_inj h.ids_nodup hr h2mem (by rw [hrc, h2id])
        subst hreq
        simp only [if_neg hrp, if_pos hrc]
        refine ⟨by rw [h2id', hrc], h2_par, h2_ch, ?_,
          fun hn => by rw [h2_par]; exact hn, h2_sp_nodup,
          fun hn => by rw [h2_ch]; exact hn⟩
        intro a
        rw [h2_sp_mem a]
        constructor
        · rintro (ha | rfl)
          · exact Or.inl ha
          · exact Or.inr (Or.inr ⟨hrc, rfl⟩)
        · rintro (ha | ⟨hbad, _⟩ | ⟨_, rfl⟩)
          · exact Or.inl ha
          · exact absurd hbad hrp
          · exact Or.inr rfl
      · simp only [if_neg hrp, if_neg hrc]
        refine ⟨trivial, trivial, trivial, ?_, fun hn => hn, fun hn => hn, fun hn => hn⟩
        intro a
        constructor
        · exact fun ha => Or.inl ha
        · rintro (ha | ⟨hbad, _⟩ | ⟨hbad, _⟩)
          · exact ha
          · exact absurd hbad hrp
          · exact absurd hbad hrc
  have hmm2 : ∀ r'', r'' ∈ setPerson (setPerson t.people p1id p1') p2id p2' →
      ∃ r, r ∈ t.people ∧ r'' = (fun q => if q.id = p2id then p2' else q)
        ((fun q => if q.id = p1id then p1' else q) r) := by
    intro r'' hr''
    obtain ⟨r', hr', rfl⟩ := List.mem_map.mp hr''
    obtain ⟨r, hr, rfl⟩ := List.mem_map.mp hr'
    exact ⟨r, hr, rfl⟩
  have hids : List.map Person.id (setPerson (setPerson t.people p1id p1') p2id p2') =
      List.map Person.id t.people := by
    unfold setPerson
    rw [List.map_map, List.map_map]
    apply List.map_congr_left
    intro r hr
    exact (hImg r hr).1
  refine ⟨?_, ?_, ?_, ?_, ?_⟩
  · show (List.map Person.id (setPerson (setPerson t.people p1id p1') p2id p2')).Nodup
    rw [hids]
    exact h.ids_nodup
  · intro r'' hr''
    obtain ⟨r, hr, rfl⟩ := hmm2 r'' hr''
    rw [(hImg r hr).1]
    exact h.id_lt r hr
  · intro r'' hr''
    obtain ⟨r, hr, rfl⟩ := hmm2 r'' hr''
    obtain ⟨e1, e2, e3⟩ := h.edges_nodup r hr
    obtain ⟨_, _, _, _, n1, n2, n3⟩ := hImg r hr
    exact ⟨n1 e1, n2 e2, n3 e3⟩
  · intro r'' hr''
    obtain ⟨r, hr, rfl⟩ := hmm2 r'' hr''
    obtain ⟨c1, c2, c3⟩ := h.edges_closed r hr
    obtain ⟨_, hpar2, hch2, hspm, _, _, _⟩ := hImg r hr
    have hids2 : ∀ e, e ∈ idsOf t →
        e ∈ idsOf { t with people := setPerson (setPerson t.people p1id p1') p2id p2' } := by
      intro e he
      show e ∈ List.map Person.id (setPerson (setPerson t.people p1id p1') p2id p2')
      rw [hids]
      exact he
    refine ⟨?_, ?_, ?_⟩
    · intro e he
      rw [hpar2] at he
      exact hids2 e (c1 e he)
    · intro e he
      rcases (hspm e).mp he with he1 | ⟨_, rfl⟩ | ⟨_, rfl⟩
      · exact hids2 e (c2 e he1)
      · exact hids2 _ (h2id ▸ List.mem_map_of_mem Person.id h2mem)
      · exact hids2 _ (h1id ▸ List.mem_map_of_mem Person.id h1mem)
    · intro e he
      rw [hch2] at he
      exact hids2 e (c3 e he)
  · intro x'' hx'' y'' hy''
    obtain ⟨x, hx, rfl⟩ := hmm2 x'' hx''
    obtain ⟨y, hy, rfl⟩ := hmm2 y'' hy''
    obtain ⟨hxid, hxpar, hxch, hxspm, _, _, _⟩ := hImg x hx
    obtain ⟨hyid, hypar, hych, hyspm, _, _, _⟩ := hImg y hy
    constructor
    · rw [hxid, hyid, hypar, hxch]
      exact (h.mirror x hx y hy).1
    · rw [hxid, hyid]
      constructor
      · intro hm1
        rcases (hyspm x.id).mp hm1 with hm2 | ⟨h1, h2⟩ | ⟨h1, h2⟩
        · exact (hxspm y.id).mpr (Or.inl ((h.mirror x hx y hy).2.mp hm2))
        · exact (hxspm y.id).mpr (Or.inr (Or.inr ⟨h2, h1⟩))
        · exact (hxspm y.id).mpr (Or.inr (Or.inl ⟨h2, h1⟩))
      · intro hm1
        rcases (hxspm y.id).mp hm1 with hm2 | ⟨h1, h2⟩ | ⟨h1, h2⟩
        · exact (hyspm x.id).mpr (Or.inl ((h.mirror x hx y hy).2.mpr hm2))
        · exact (hyspm x.id).mpr (Or.inr (Or.inr ⟨h2, h1⟩))
        · exact (hyspm x.id).mpr (Or.inr (Or.inl ⟨h2, h1⟩))

theorem inv_addSpouse {t : FamilyTree} (p1id p2id : Int) (h : Inv t) :
    Inv (addSpouseState t p1id p2id) := by
  unfold addSpouseState addSpouse
  by_cases hne : p1id = p2id
  · rw [if_pos hne]
    exact h
  · rw [if_neg hne]
    cases hg1 : getPerson t p1id with
    | none => exact h
    | some p1 =>
      cases hg2 : getPerson t p2id with
      | none => exact h
      | some p2 =>
        exact inv_link_sp h hne hg1 hg2 _ _ rfl rfl

/-- Every state reachable via the in-memory mutating operations satisfies
the strengthened invariant. -/
theorem reachableMem_inv {t : FamilyTree} (h : ReachableMem t) : Inv t := by
  induction h with
  | empty => exact inv_empty
  | addPerson t name byr dyr g bd dd city _ ih => exact inv_addPerson name byr dyr g bd dd city ih
  | updatePerson t pid name byr dyr g bd dd city _ ih =>
    exact inv_updatePerson pid name byr dyr g bd dd city ih
  | addParentChild t pid cid _ ih => exact inv_addParentChild pid cid ih
  | addSpouse t p1id p2id _ ih => exact inv_addSpouse p1id p2id ih
  | removePerson t pid _ ih => exact inv_removePerson pid ih


/-- Both per-root Nodup/leaf properties of a tree built with a fresh
visited set. -/
theorem buildTreeNode_props (t : FamilyTree) (root : Person) :
    (expandedIds (buildTreeNode t root []).1).Nodup ∧
    truncOk (buildTreeNode t root []).1 = true := by
  unfold buildTreeNode
  cases hres : buildTreeNodeFuel (nodeFuel t) t root [] with
  | none =>
    simp only [Option.getD_none]
    constructor
    · rw [show expandedIds (.node root [] [] true) = [] from rfl]
      exact List.nodup_nil
    · rfl
  | some pr =>
    obtain ⟨nd, v⟩ := pr
    simp only [Option.getD_some]
    exact ⟨(buildTreeNodeFuel_visited _ t root [] nd v hres).2.2,
           buildTreeNodeFuel_truncOk _ t root [] nd v hres⟩

/-- Cyclic pair: A is parent of B and B is (artificially) parent of A. -/
def pCycA : Person := ⟨1, "A", none, none, none, none, none, none, [2], [], [2]⟩

def pCycB : Person := ⟨2, "B", none, none, none, none, none, none, [1], [], [1]⟩

def tCyc : FamilyTree := ⟨[pCycA, pCycB], 3⟩

/-- Two parentless roots sharing one child. -/
def pP1 : Person := ⟨1, "P", none, none, none, none, none, none, [], [], [3]⟩

def pP2 : Person := ⟨2, "Q", none, none, none, none, none, none, [], [], [3]⟩

def pC3 : Person := ⟨3, "C", none, none, none, none, none, none, [1, 2], [], []⟩

def tShared : FamilyTree := ⟨[pP1, pP2, pC3], 4⟩

/-- **C3** — counterexample.  The claim states one visited set is shared
across the entire `build_tree` call, so a child shared between two
separately processed root subtrees is expanded exactly once, later
references yielding `truncated = true` leaves.  But `get_tree_data`
passes a *fresh* `set()` to each root, so the shared child C is expanded
(truncated = false) under both roots. -/
theorem C3_shared_visited_cex :
    getTreeData tShared none =
      .ok [.node pP1 [] [.node pC3 [] [] false] false,
           .node pP2 [] [.node pC3 [] [] false] false] ∧
    TreeNode.isTrunc (.node pC3 [] [] false) = false :=
  ⟨rfl, rfl⟩

/-- **C3** — amended claim: the visited set is shared across a *single*
root's traversal — within `build_tree(root_id)`, or within each root's
subtree of the no-argument call, every person is expanded at most once
and every repeat becomes a `truncated = true` leaf with no children or
spouses — but in the no-`root_id` call each root's subtree starts from a
fresh visited set, so a child shared between two separately processed
roots is expanded once per root. -/
theorem C3_visited_amended (t : FamilyTree) :
    (∀ r ns, r ≠ 0 → getTreeData t (some r) = .ok ns →
      (expandedIdsL ns).Nodup ∧ truncOkL ns = true) ∧
    (∀ ns, getTreeData t none = .ok ns →
      ∀ n ∈ ns, (expandedIds n).Nodup ∧ truncOk n = true) := by
  constructor
  · intro r ns hr h
    simp only [getTreeData] at h
    split at h
    · obtain rfl : [] = ns := by simpa using h
      exact ⟨List.nodup_nil, rfl⟩
    · cases hg : getPerson t r with
      | none => rw [hg] at h; exact absurd h (by simp)
      | some root =>
        rw [hg] at h
        simp only [Except.ok.injEq] at h
        obtain rfl := h
        obtain ⟨h1, h2⟩ := buildTreeNode_props t root
        constructor
        · simpa [expandedIdsL] using h1
        · simp [truncOkL, h2]
  · intro ns h n hn
    simp only [getTreeData] at h
    split at h
    · obtain rfl : [] = ns := by simpa using h
      simp at hn
    · simp only [Except.ok.injEq] at h
      obtain rfl := h
      unfold getTreeDataNoRoot at hn
      obtain ⟨root, hrootmem, rfl⟩ := List.mem_map.mp hn
      exact buildTreeNode_props t root

/-- **C3** — witness for the amended theorem at a concrete input. -/
theorem C3_visited_amended_witness :
    (expandedIdsL
      [TreeNode.node pCycA [] [.node pCycB [] [.node pCycA [] [] true] false] false]).Nodup ∧
    truncOkL
      [TreeNode.node pCycA [] [.node pCycB [] [.node pCycA [] [] true] false] false] = true :=
  (C3_visited_amended tCyc).1 1 _ (by decide) rfl

/-- **C4** — counterexample.  The claim demands a "not found" failure for
every `root_id` that identifies no stored person.  But Python's
`if root_id:` treats `0` as absent: `build_tree(0)` on a tree with no
person of id 0 silently returns the whole forest instead of failing. -/
theorem C4_root_cex :
    getPerson tAl 0 = none ∧
    getTreeData tAl (some 0) = .ok [.node pAl [] [] false] :=
  ⟨rfl, rfl⟩

/-- **C4** — amended claim: for a nonzero `root_id` on a nonempty
collection, `build_tree` fails "not found" when the id is absent and
returns the single-root forest of exactly that person's subtree when it
is present; `root_id = 0` falls through to the full-forest branch, and
an empty collection returns `[]` before the id is ever checked. -/
theorem C4_root_amended (t : FamilyTree) (r : Int) (hne : t.people ≠ []) (hr : r ≠ 0) :
    (getPerson t r = none →
      getTreeData t (some r) = .error ("Person not found (ID: " ++ toString r ++ ")")) ∧
    (∀ root, getPerson t r = some root →
      getTreeData t (some r) = .ok [(buildTreeNode t root []).1]) := by
  have hne' : t.people.isEmpty = false := by
    cases hpp : t.people with
    | nil => exact absurd hpp hne
    | cons a l => rfl
  constructor
  · intro hnone
    simp only [getTreeData, hne', Bool.false_eq_true, if_false]
    rw [if_pos hr, hnone]
  · intro root hroot
    simp only [getTreeData, hne', Bool.false_eq_true, if_false]
    rw [if_pos hr, hroot]

/-- **C4** — witness for the amended theorem at concrete inputs. -/
theorem C4_root_amended_witness :
    getTreeData tAl (some 5) = .error ("Person not found (ID: " ++ toString (5 : Int) ++ ")") ∧
    getTreeData tAl (some 1) = .ok [(buildTreeNode tAl pAl []).1] :=
  ⟨(C4_root_amended tAl 5 (by decide) (by decide)).1 rfl,
   (C4_root_amended tAl 1 (by decide) (by decide)).2 pAl rfl⟩

/-- **C5** (confirmed): the recursive node construction cannot run out
of fuel on any finite collection — one fuel unit per stored person plus
one always suffices, whatever the edge contents — and on the cyclic pair
A ↔ B, `build_tree(root = A)` terminates with the second visit to A
returned as a `truncated = true` leaf with no children or spouses. -/
theorem C5_cycle_termination :
    (∀ (t : FamilyTree) (p : Person) (visited : List Int), p ∈ t.people →
      (buildTreeNodeFuel (nodeFuel t) t p visited).isSome = true) ∧
    getTreeData tCyc (some 1) =
      .ok [.node pCycA [] [.node pCycB [] [.node pCycA [] [] true] false] false] := by
  constructor
  · intro t p visited hp
    apply buildTreeNodeFuel_isSome
    · exact List.mem_map_of_mem Person.id hp
    · calc freshCount t visited ≤ t.people.length := freshCount_le t visited
        _ < nodeFuel t := by simp [nodeFuel]
  · rfl

/-- A parsable document whose edge lists are not mirrored: person 1
lists person 2 as a child, but person 2 does not list person 1 as a
parent. -/
def docMir : Document :=
  .parsed (some 3)
    (some [⟨some 1, some "Al", none, none, none, .noneV, .noneV, none, [], [], [2]⟩,
           ⟨some 2, some "Bo", none, none, none, .noneV, .noneV, none, [], [], []⟩])

/-- The state `load` builds from `docMir`. -/
def tMir : FamilyTree :=
  ⟨[⟨1, "Al", none, none, none, none, none, none, [], [], [2]⟩,
    ⟨2, "Bo", none, none, none, none, none, none, [], [], []⟩], 3⟩

/-- **C9** — counterexample.  The claim quantifies over every state
reachable from the empty tree via the public mutating operations, and
`load` is one of them: `from_dict` copies the stored edge lists
verbatim, with no mirroring or deduplication check, so loading a
parsable document in which person 1 lists person 2 as a child while
person 2 lists no parent yields a reachable state whose edges are not
bidirectionally mirrored. -/
theorem C9_mirror_cex :
    Reachable (loadState FamilyTree.empty (some docMir)) ∧
    loadState FamilyTree.empty (some docMir) = tMir ∧
    ¬ Mirror tMir :=
  ⟨Reachable.load FamilyTree.empty (some docMir) Reachable.empty, rfl, by decide⟩

/-- **C9** — amended claim: in every state reachable from the empty
tree via the *in-memory* mutating operations (`add_person`,
`update_person`, `add_parent_child`, `add_spouse`, `remove_person` —
persistence excluded), edges are bidirectionally mirrored and no edge
list contains a duplicate id. -/
theorem C9_mirror_amended {t : FamilyTree} (h : ReachableMem t) :
    Mirror t ∧ NodupEdges t :=
  ⟨(reachableMem_inv h).mirror, (reachableMem_inv h).edges_nodup⟩

theorem C9_mirror_amended_witness :
    Mirror (addParentChildState (addPersonState (addPersonState FamilyTree.empty
        "Al" none none none DateField.noneV DateField.noneV none)
        "Bo" none none none DateField.noneV DateField.noneV none) 1 2) ∧
    NodupEdges (addParentChildState (addPersonState (addPersonState FamilyTree.empty
        "Al" none none none DateField.noneV DateField.noneV none)
        "Bo" none none none DateField.noneV DateField.noneV none) 1 2) :=
  C9_mirror_amended (ReachableMem.addParentChild _ 1 2
    (ReachableMem.addPerson _ "Bo" none none none DateField.noneV DateField.noneV none
      (ReachableMem.addPerson _ "Al" none none none DateField.noneV DateField.noneV none
        ReachableMem.empty)))

end FamilyTreeSpec
